import Mathlib

/-!
# Verification of the BTYPE canonicalizing type store

Shallow embedding of the BTYPE repository (CLEARSY/BTYPE):

* `BType` together with `BType.hash_combine`, `BType.compare` embeds the
  type-algebra class hierarchy of `src/btype.h` and `src/btype.cpp` as a
  tree-shaped value (each nested C++ class becomes a constructor).
* `Store` together with the `get…`/`getOrCreate…` functions embeds the
  thread-safe interning cache `BTypeCache` of `src/btype_factory.cpp`,
  executed sequentially: a handle (C++ `std::shared_ptr<BType>`) is
  identified with the node position in the factory index table, which is
  exact for sequential executions because `BTypeCache::index` assigns
  `m_index.size()` to each freshly created node.
* `buildFromXML` embeds the reader of `src/btype_xml_reader.cpp` and
  `writeRecords` the writer of `src/btype_xml_writer.cpp`, both at the
  level of the record lists they exchange (the tinyxml2 XML layer is an
  external library; attributes that may be absent in a document are
  `Option`-valued).  The C++ resolver recurses without a depth guard and
  diverges on cyclic reference graphs; the embedding makes every call
  depth-indexed by explicit fuel, with fuel exhaustion modelling
  divergence (depth of the C++ recursion is at most the record count on
  every acyclic document, so the chosen budget never exhausts there).
* `std::hash<std::string>` is an implementation detail of the C++ standard
  library, not of this repository, so the string hash is a parameter
  `strhash` of every hashing function; `strhashModel` is one executable
  instance used by concrete witnesses.
-/

/-
A handle to an interned node is its position in the factory index table,
written `Nat` throughout (C++ hands out `std::shared_ptr<BType>`; by
canonical identity a sequential execution can identify the pointer with the
node index).
-/

/-! ## Type algebra (`src/btype.h`, `src/btype.cpp`) -/

/-- `BType::Kind` from `src/btype.h`. -/
inductive Kind where
  | INTEGER
  | BOOLEAN
  | FLOAT
  | REAL
  | STRING
  | ProductType
  | PowerType
  | Struct
  | AbstractSet
  | EnumeratedSet
deriving DecidableEq

/-- The `BType` class hierarchy of `src/btype.h` as a tree: a node of kind
`ProductType`, `PowerType` or `Struct` holds its children by value where the
C++ object holds canonical shared pointers. -/
inductive BType where
  | INTEGER
  | BOOLEAN
  | FLOAT
  | REAL
  | STRING
  | ProductType (lhs rhs : BType)
  | PowerType (content : BType)
  | AbstractSet (name : String)
  | EnumeratedSet (name : String) (values : List String)
  | StructType (fields : List (String × BType))

/-- `BType::getKind` from `src/btype.h`. -/
def BType.getKind : BType → Kind
  | .INTEGER => .INTEGER
  | .BOOLEAN => .BOOLEAN
  | .FLOAT => .FLOAT
  | .REAL => .REAL
  | .STRING => .STRING
  | .ProductType _ _ => .ProductType
  | .PowerType _ => .PowerType
  | .AbstractSet _ => .AbstractSet
  | .EnumeratedSet _ _ => .EnumeratedSet
  | .StructType _ => .Struct

/-- `hashUtil::hash_combine_string` from `src/btype.cpp`:
`seed ^ (std::hash<std::string>{}(str) + 0x9e3779b9 + (seed << 6) + (seed >> 2))`
with all arithmetic on 64-bit `size_t`.  `strhash` stands for
`std::hash<std::string>`. -/
def hash_combine_string (strhash : String → Nat) (str : String) (seed : Nat) : Nat :=
  seed ^^^ ((strhash str + 0x9e3779b9 + seed * 2 ^ 6 + seed / 2 ^ 2) % 2 ^ 64)

mutual

/-- The virtual `hash_combine` methods of `src/btype.cpp` (the dispatching
`BType::hash_combine` plus the per-kind overrides), folded into one function
on the tree. -/
def BType.hash_combine (strhash : String → Nat) : BType → Nat → Nat
  | .INTEGER, seed => hash_combine_string strhash "INTEGER" seed
  | .BOOLEAN, seed => hash_combine_string strhash "BOOLEAN" seed
  | .FLOAT, seed => hash_combine_string strhash "FLOAT" seed
  | .REAL, seed => hash_combine_string strhash "REAL" seed
  | .STRING, seed => hash_combine_string strhash "STRING" seed
  | .ProductType lhs rhs, seed =>
      BType.hash_combine strhash lhs (BType.hash_combine strhash rhs seed)
  | .PowerType content, seed =>
      hash_combine_string strhash "POW" (BType.hash_combine strhash content seed)
  | .AbstractSet name, seed => hash_combine_string strhash name seed
  | .EnumeratedSet name _, seed => hash_combine_string strhash name seed
  | .StructType fields, seed => BType.hash_fields strhash fields seed

/-- The field loop of `BType::StructType::hash_combine` in `src/btype.cpp`:
`for (auto& p : m_fields) res = hash_combine_string(p.first, p.second->hash_combine(res))`. -/
def BType.hash_fields (strhash : String → Nat) : List (String × BType) → Nat → Nat
  | [], res => res
  | (name, btype) :: rest, res =>
      BType.hash_fields strhash rest
        (hash_combine_string strhash name (BType.hash_combine strhash btype res))

end

/-- `BType::hash` from `src/btype.h`: the memoized value is `hash_combine(0)`. -/
def BType.hash (strhash : String → Nat) (t : BType) : Nat :=
  BType.hash_combine strhash t 0

/-- `BType::compare` from `src/btype.cpp`. -/
def BType.compare (strhash : String → Nat) (v1 v2 : BType) : Int :=
  let hash1 := BType.hash_combine strhash v1 0
  let hash2 := BType.hash_combine strhash v2 0
  if hash1 < hash2 then -1
  else if hash2 < hash1 then 1
  else 0

/-- `BType::operator==` from `src/btype.h`: `compare(*this, other) == 0`. -/
def BType.eqb (strhash : String → Nat) (a b : BType) : Bool :=
  BType.compare strhash a b == 0

/-- An executable stand-in for `std::hash<std::string>` (FNV-1a folded to 64
bits), used to instantiate witnesses; every theorem about hashing is proved
for an arbitrary `strhash`. -/
def strhashModel (s : String) : Nat :=
  s.data.foldl (fun h c => ((h ^^^ c.toNat) * 16777619) % 2 ^ 64) 14695981039346656037

/-! ## Sorted-field normalization (`BType::StructType::sort`) -/

/-- `BType::StructType::sort` from `src/btype.cpp`: sorts a field list by
field name (`std::sort` with comparator `a.first < b.first`; `insertionSort`
by `≤` on the names realises the same specification deterministically). -/
def sortFields {α : Type} (fields : List (String × α)) : List (String × α) :=
  List.insertionSort (fun a b => a.1 ≤ b.1) fields

/-- The struct-cache key built in `BTypeCache::getOrCreateStruct`
(`src/btype_factory.cpp`): the field names of the sorted field list, each
followed by a `;` separator. -/
def structKey (fields : List (String × Nat)) : String :=
  fields.foldl (fun acc field => acc ++ field.1 ++ ";") ""

/-! ## Canonicalization store (`BTypeCache`, `src/btype_factory.cpp`) -/

/-- A node owned by the store; children are handles (canonical shared
pointers in C++, identified here with their table index). -/
inductive NodeData where
  | INTEGER
  | BOOLEAN
  | FLOAT
  | REAL
  | STRING
  | ProductType (lhs rhs : Nat)
  | PowerType (content : Nat)
  | AbstractSet (name : String)
  | EnumeratedSet (name : String) (values : List String)
  | Struct (fields : List (String × Nat))
deriving DecidableEq

/-- An association list standing for the `std::unordered_map` caches of
`BTypeCache`: the key equality is the map key equality (for the product and
power caches, C++ compares the shared pointers themselves — which by
canonical identity is handle equality). -/
def findKey {κ : Type} [DecidableEq κ] : List (κ × Nat) → κ → Option Nat
  | [], _ => none
  | (k, h) :: rest, key => if key = k then some h else findKey rest key

/-- The state of `BTypeCache` from `src/btype_factory.cpp`: one cache per
kind, the five leaf singleton slots, and the global index table. -/
structure Store where
  m_INTEGER : Option Nat := none
  m_BOOLEAN : Option Nat := none
  m_FLOAT : Option Nat := none
  m_REAL : Option Nat := none
  m_STRING : Option Nat := none
  m_productTypes : List ((Nat × Nat) × Nat) := []
  m_powerTypes : List (Nat × Nat) := []
  m_abstractSets : List (String × Nat) := []
  m_enumeratedSets : List (String × Nat) := []
  m_structTypes : List (String × Nat) := []
  m_index : List NodeData := []
deriving DecidableEq

/-- A fresh `BTypeCache`. -/
def emptyStore : Store := {}

/-- `BTypeFactory::size`. -/
def Store.size (S : Store) : Nat := S.m_index.length

/-- `BTypeCache::getInteger`: on a miss the node is created and then
`BTypeCache::index` appends it, assigning index `m_index.size()`. -/
def getInteger (S : Store) : Store × Nat :=
  match S.m_INTEGER with
  | some h => (S, h)
  | none =>
      let h := S.m_index.length
      ({ S with m_INTEGER := some h, m_index := S.m_index ++ [NodeData.INTEGER] }, h)

/-- `BTypeCache::getBoolean`. -/
def getBoolean (S : Store) : Store × Nat :=
  match S.m_BOOLEAN with
  | some h => (S, h)
  | none =>
      let h := S.m_index.length
      ({ S with m_BOOLEAN := some h, m_index := S.m_index ++ [NodeData.BOOLEAN] }, h)

/-- `BTypeCache::getFloat`. -/
def getFloat (S : Store) : Store × Nat :=
  match S.m_FLOAT with
  | some h => (S, h)
  | none =>
      let h := S.m_index.length
      ({ S with m_FLOAT := some h, m_index := S.m_index ++ [NodeData.FLOAT] }, h)

/-- `BTypeCache::getReal`. -/
def getReal (S : Store) : Store × Nat :=
  match S.m_REAL with
  | some h => (S, h)
  | none =>
      let h := S.m_index.length
      ({ S with m_REAL := some h, m_index := S.m_index ++ [NodeData.REAL] }, h)

/-- `BTypeCache::getString`. -/
def getString (S : Store) : Store × Nat :=
  match S.m_STRING with
  | some h => (S, h)
  | none =>
      let h := S.m_index.length
      ({ S with m_STRING := some h, m_index := S.m_index ++ [NodeData.STRING] }, h)

/-- `BTypeCache::getOrCreateProductType`: key is the ordered pair of child
handles. -/
def getOrCreateProductType (S : Store) (lhs rhs : Nat) : Store × Nat :=
  match findKey S.m_productTypes (lhs, rhs) with
  | some h => (S, h)
  | none =>
      let h := S.m_index.length
      ({ S with
          m_productTypes := ((lhs, rhs), h) :: S.m_productTypes,
          m_index := S.m_index ++ [NodeData.ProductType lhs rhs] }, h)

/-- `BTypeCache::getOrCreatePowerType`: key is the content handle. -/
def getOrCreatePowerType (S : Store) (content : Nat) : Store × Nat :=
  match findKey S.m_powerTypes content with
  | some h => (S, h)
  | none =>
      let h := S.m_index.length
      ({ S with
          m_powerTypes := (content, h) :: S.m_powerTypes,
          m_index := S.m_index ++ [NodeData.PowerType content] }, h)

/-- `BTypeCache::getOrCreateAbstractSet`: key is the name. -/
def getOrCreateAbstractSet (S : Store) (name : String) : Store × Nat :=
  match findKey S.m_abstractSets name with
  | some h => (S, h)
  | none =>
      let h := S.m_index.length
      ({ S with
          m_abstractSets := (name, h) :: S.m_abstractSets,
          m_index := S.m_index ++ [NodeData.AbstractSet name] }, h)

/-- `BTypeCache::getOrCreateEnumeratedSet`: key is the name only; the value
list plays no part in the lookup. -/
def getOrCreateEnumeratedSet (S : Store) (name : String) (values : List String) :
    Store × Nat :=
  match findKey S.m_enumeratedSets name with
  | some h => (S, h)
  | none =>
      let h := S.m_index.length
      ({ S with
          m_enumeratedSets := (name, h) :: S.m_enumeratedSets,
          m_index := S.m_index ++ [NodeData.EnumeratedSet name values] }, h)

/-- `BTypeCache::getOrCreateStruct`: the lookup key is built from the sorted
field names only; on a miss the `StructType` constructor sorts the already
sorted list once more. -/
def getOrCreateStruct (S : Store) (fields : List (String × Nat)) : Store × Nat :=
  let sortedFields := sortFields fields
  let keyString := structKey sortedFields
  match findKey S.m_structTypes keyString with
  | some h => (S, h)
  | none =>
      let h := S.m_index.length
      ({ S with
          m_structTypes := (keyString, h) :: S.m_structTypes,
          m_index := S.m_index ++ [NodeData.Struct (sortFields sortedFields)] }, h)

/-- One construction call on the factory (`BTypeFactory::Integer`,
`BTypeFactory::Product`, …), with already-interned children passed by
handle. -/
inductive Request where
  | integer
  | boolean
  | float
  | real
  | string
  | product (lhs rhs : Nat)
  | powerSet (content : Nat)
  | abstractSet (name : String)
  | enumeratedSet (name : String) (values : List String)
  | struct (fields : List (String × Nat))
deriving DecidableEq

/-- Dispatch of the `BTypeFactory` public constructors to the cache methods
(`src/btype_factory.cpp`, bottom). -/
def applyReq (S : Store) : Request → Store × Nat
  | .integer => getInteger S
  | .boolean => getBoolean S
  | .float => getFloat S
  | .real => getReal S
  | .string => getString S
  | .product lhs rhs => getOrCreateProductType S lhs rhs
  | .powerSet c => getOrCreatePowerType S c
  | .abstractSet n => getOrCreateAbstractSet S n
  | .enumeratedSet n vs => getOrCreateEnumeratedSet S n vs
  | .struct fields => getOrCreateStruct S fields

/-- A sequence of construction calls. -/
def applySeq (S : Store) (rs : List Request) : Store :=
  rs.foldl (fun acc r => (applyReq acc r).1) S

/-! ## Cache keys: the per-kind lookup keys of `BTypeCache` -/

/-- The lookup key a construction request is matched under, one constructor
per cache partition (plus one per leaf singleton slot). -/
inductive CacheKey where
  | integer
  | boolean
  | float
  | real
  | string
  | product (lhs rhs : Nat)
  | power (content : Nat)
  | abstract (name : String)
  | enum (name : String)
  | structKey (key : String)
deriving DecidableEq

/-- The key under which `applyReq` looks a request up. -/
def reqKey : Request → CacheKey
  | .integer => .integer
  | .boolean => .boolean
  | .float => .float
  | .real => .real
  | .string => .string
  | .product lhs rhs => .product lhs rhs
  | .powerSet c => .power c
  | .abstractSet n => .abstract n
  | .enumeratedSet n _ => .enum n
  | .struct fields => .structKey (structKey (sortFields fields))

/-- Reading a key in the store: dispatches to the cache partition the
corresponding `getOrCreate…` method consults. -/
def lookupKey (S : Store) : CacheKey → Option Nat
  | .integer => S.m_INTEGER
  | .boolean => S.m_BOOLEAN
  | .float => S.m_FLOAT
  | .real => S.m_REAL
  | .string => S.m_STRING
  | .product lhs rhs => findKey S.m_productTypes (lhs, rhs)
  | .power c => findKey S.m_powerTypes c
  | .abstract n => findKey S.m_abstractSets n
  | .enum n => findKey S.m_enumeratedSets n
  | .structKey k => findKey S.m_structTypes k

/-- The node data a request creates on a cache miss. -/
def nodeOfReq : Request → NodeData
  | .integer => .INTEGER
  | .boolean => .BOOLEAN
  | .float => .FLOAT
  | .real => .REAL
  | .string => .STRING
  | .product lhs rhs => .ProductType lhs rhs
  | .powerSet c => .PowerType c
  | .abstractSet n => .AbstractSet n
  | .enumeratedSet n vs => .EnumeratedSet n vs
  | .struct fields => .Struct (sortFields (sortFields fields))

/-- Registering a handle under a key: the cache insertion a `getOrCreate…`
method performs on a miss. -/
def insertCache (S : Store) : CacheKey → Nat → Store
  | .integer, h => { S with m_INTEGER := some h }
  | .boolean, h => { S with m_BOOLEAN := some h }
  | .float, h => { S with m_FLOAT := some h }
  | .real, h => { S with m_REAL := some h }
  | .string, h => { S with m_STRING := some h }
  | .product lhs rhs, h => { S with m_productTypes := ((lhs, rhs), h) :: S.m_productTypes }
  | .power c, h => { S with m_powerTypes := (c, h) :: S.m_powerTypes }
  | .abstract n, h => { S with m_abstractSets := (n, h) :: S.m_abstractSets }
  | .enum n, h => { S with m_enumeratedSets := (n, h) :: S.m_enumeratedSets }
  | .structKey k, h => { S with m_structTypes := (k, h) :: S.m_structTypes }

/-- The store after a cache miss of request `r`: the key is registered and
the new node appended to the index table. -/
def pushNode (S : Store) (r : Request) : Store :=
  { insertCache S (reqKey r) S.m_index.length with
      m_index := S.m_index ++ [nodeOfReq r] }

/-- The key of the node data stored in the table (used to state the cache
coherence invariant). -/
def keyOfNode : NodeData → CacheKey
  | .INTEGER => .integer
  | .BOOLEAN => .boolean
  | .FLOAT => .float
  | .REAL => .real
  | .STRING => .string
  | .ProductType lhs rhs => .product lhs rhs
  | .PowerType c => .power c
  | .AbstractSet n => .abstract n
  | .EnumeratedSet n _ => .enum n
  | .Struct fields => .structKey (structKey fields)

/-- The handles a node references. -/
def nodeRefs : NodeData → List Nat
  | .ProductType lhs rhs => [lhs, rhs]
  | .PowerType c => [c]
  | .Struct fields => fields.map Prod.snd
  | _ => []

/-- The handles a request passes to the factory. -/
def reqRefs : Request → List Nat
  | .product lhs rhs => [lhs, rhs]
  | .powerSet c => [c]
  | .struct fields => fields.map Prod.snd
  | _ => []

theorem findKey_cons {κ : Type} [DecidableEq κ] (k : κ) (h : Nat)
    (rest : List (κ × Nat)) (key : κ) :
    findKey ((k, h) :: rest) key = if key = k then some h else findKey rest key := rfl

/-- Idempotence of the field sort. -/
theorem sortFields_sortFields {α : Type} (fields : List (String × α)) :
    sortFields (sortFields fields) = sortFields fields := by
  have : IsTotal (String × α) (fun a b : String × α => a.1 ≤ b.1) :=
    ⟨fun a b => le_total a.1 b.1⟩
  have : IsTrans (String × α) (fun a b : String × α => a.1 ≤ b.1) :=
    ⟨fun a b c hab hbc => le_trans hab hbc⟩
  exact List.Sorted.insertionSort_eq
    (List.sorted_insertionSort (fun a b : String × α => a.1 ≤ b.1) fields)

/-- `applyReq` in lookup-then-create form: every `getOrCreate…` method first
consults its cache under the request key and only on a miss creates,
registers and indexes the node. -/
theorem applyReq_eq (S : Store) (r : Request) :
    applyReq S r =
      match lookupKey S (reqKey r) with
      | some h => (S, h)
      | none => (pushNode S r, S.m_index.length) := by
  cases r <;>
    simp only [applyReq, getInteger, getBoolean, getFloat, getReal, getString,
      getOrCreateProductType, getOrCreatePowerType, getOrCreateAbstractSet,
      getOrCreateEnumeratedSet, getOrCreateStruct, reqKey, lookupKey, pushNode,
      insertCache, nodeOfReq]

/-! ## Hash / comparison facts (claims C3, C4, C9) -/

theorem hash_fields_eq_foldl (strhash : String → Nat) (l : List (String × BType)) (seed : Nat) :
    BType.hash_fields strhash l seed =
      l.foldl (fun s p => hash_combine_string strhash p.1 (BType.hash_combine strhash p.2 s))
        seed := by
  induction l generalizing seed with
  | nil => rfl
  | cons p rest ih =>
      obtain ⟨name, btype⟩ := p
      simp only [BType.hash_fields, List.foldl_cons, ih]

/-- C3.  Equality and total order are purely a function of the structural
hash: `compare(a,b)` is the sign of `hash(a) - hash(b)` and `a == b` holds
exactly when `hash(a) == hash(b)`. -/
theorem compare_eq_sign_of_hash_sub (strhash : String → Nat) (a b : BType) :
    BType.compare strhash a b =
        Int.sign ((BType.hash strhash a : Int) - (BType.hash strhash b : Int))
    ∧ (BType.eqb strhash a b = true ↔ BType.hash strhash a = BType.hash strhash b) := by
  unfold BType.compare BType.eqb BType.hash
  rcases lt_trichotomy (BType.hash_combine strhash a 0) (BType.hash_combine strhash b 0) with
    hlt | heq | hgt
  · have hneg : (BType.hash_combine strhash a 0 : Int) - BType.hash_combine strhash b 0 < 0 := by
      omega
    rw [Int.sign_eq_neg_one_of_neg hneg]
    constructor
    · simp [hlt]
    · simp only [BType.compare, if_pos hlt]
      constructor
      · intro h
        simp at h
      · intro h
        omega
  · have hzero : (BType.hash_combine strhash a 0 : Int) - BType.hash_combine strhash b 0 = 0 := by
      omega
    rw [hzero]
    constructor
    · simp [heq, lt_irrefl]
    · simp only [BType.compare, heq, lt_irrefl, if_false]
      simp [heq]
  · have hpos : (0 : Int) < (BType.hash_combine strhash a 0 : Int) - BType.hash_combine strhash b 0 := by
      omega
    rw [Int.sign_eq_one_of_pos hpos]
    constructor
    · have hnlt : ¬ BType.hash_combine strhash a 0 < BType.hash_combine strhash b 0 := by omega
      simp [hnlt, hgt]
    · have hnlt : ¬ BType.hash_combine strhash a 0 < BType.hash_combine strhash b 0 := by omega
      simp only [BType.compare, if_neg hnlt, if_pos hgt]
      constructor
      · intro h
        simp at h
      · intro h
        omega

/-- C4.  The structural hash follows the stated recursion: leaves combine a
fixed label with the seed through
`seed XOR (strhash(label) + 0x9e3779b9 + (seed << 6) + (seed >> 2))`,
Product folds the right child first, PowerSet combines the label POW with
the content-extended seed, named sets combine only the name (EnumeratedSet
values do not participate), and Struct folds its sorted fields through
`s = combine(fieldName, fieldType.hash_combine(s))`. -/
theorem hash_combine_rules (strhash : String → Nat) (seed : Nat) :
    (∀ str, hash_combine_string strhash str seed
        = seed ^^^ ((strhash str + 0x9e3779b9 + (seed <<< 6) + (seed >>> 2)) % 2 ^ 64))
    ∧ BType.hash_combine strhash .INTEGER seed = hash_combine_string strhash "INTEGER" seed
    ∧ BType.hash_combine strhash .BOOLEAN seed = hash_combine_string strhash "BOOLEAN" seed
    ∧ BType.hash_combine strhash .FLOAT seed = hash_combine_string strhash "FLOAT" seed
    ∧ BType.hash_combine strhash .REAL seed = hash_combine_string strhash "REAL" seed
    ∧ BType.hash_combine strhash .STRING seed = hash_combine_string strhash "STRING" seed
    ∧ (∀ l r, BType.hash_combine strhash (.ProductType l r) seed
        = BType.hash_combine strhash l (BType.hash_combine strhash r seed))
    ∧ (∀ c, BType.hash_combine strhash (.PowerType c) seed
        = hash_combine_string strhash "POW" (BType.hash_combine strhash c seed))
    ∧ (∀ n, BType.hash_combine strhash (.AbstractSet n) seed
        = hash_combine_string strhash n seed)
    ∧ (∀ n vs, BType.hash_combine strhash (.EnumeratedSet n vs) seed
        = hash_combine_string strhash n seed)
    ∧ (∀ fields, BType.hash_combine strhash (.StructType (sortFields fields)) seed
        = (sortFields fields).foldl
            (fun s p => hash_combine_string strhash p.1 (BType.hash_combine strhash p.2 s))
            seed) := by
  refine ⟨fun str => ?_, rfl, rfl, rfl, rfl, rfl, fun l r => rfl, fun c => rfl,
    fun n => rfl, fun n vs => rfl, fun fields => ?_⟩
  · rw [hash_combine_string, Nat.shiftLeft_eq, Nat.shiftRight_eq_div_pow]
  · rw [show BType.hash_combine strhash (.StructType (sortFields fields)) seed
        = BType.hash_fields strhash (sortFields fields) seed from rfl,
      hash_fields_eq_foldl]

/-- C9.  Product hashing is associative, so the two structurally distinct
groupings of a triple hash alike and are therefore indistinguishable to
`compare` and `operator==`. -/
theorem product_hash_assoc (strhash : String → Nat) (a b c : BType) (seed : Nat) :
    BType.ProductType a (BType.ProductType b c) ≠ BType.ProductType (BType.ProductType a b) c
    ∧ BType.hash_combine strhash (BType.ProductType a (BType.ProductType b c)) seed
        = BType.hash_combine strhash a
            (BType.hash_combine strhash b (BType.hash_combine strhash c seed))
    ∧ BType.hash_combine strhash (BType.ProductType (BType.ProductType a b) c) seed
        = BType.hash_combine strhash a
            (BType.hash_combine strhash b (BType.hash_combine strhash c seed))
    ∧ BType.compare strhash (BType.ProductType a (BType.ProductType b c))
        (BType.ProductType (BType.ProductType a b) c) = 0
    ∧ BType.eqb strhash (BType.ProductType a (BType.ProductType b c))
        (BType.ProductType (BType.ProductType a b) c) = true := by
  refine ⟨?_, rfl, rfl, ?_, ?_⟩
  · intro h
    injection h with h1 h2
    have hsz := congrArg sizeOf h1
    simp only [BType.ProductType.sizeOf_spec] at hsz
    omega
  · simp [BType.compare, BType.hash_combine]
  · simp [BType.eqb, BType.compare, BType.hash_combine]

/-! ## Interning lemmas (claim C1) -/

theorem lookupKey_pushNode (S : Store) (r : Request) (k : CacheKey) :
    lookupKey (pushNode S r) k =
      if k = reqKey r then some S.m_index.length else lookupKey S k := by
  cases r <;> cases k <;>
    simp [pushNode, insertCache, reqKey, lookupKey, findKey_cons, Prod.ext_iff]

theorem applyReq_lookup_self (S : Store) (r : Request) :
    lookupKey (applyReq S r).1 (reqKey r) = some (applyReq S r).2 := by
  rw [applyReq_eq]
  cases hl : lookupKey S (reqKey r) with
  | some h => simpa using hl
  | none => simp [lookupKey_pushNode]

theorem applyReq_lookup_mono (S : Store) (r : Request) (k : CacheKey) (h : Nat)
    (hk : lookupKey S k = some h) :
    lookupKey (applyReq S r).1 k = some h := by
  rw [applyReq_eq]
  cases hl : lookupKey S (reqKey r) with
  | some h2 => simpa using hk
  | none =>
      simp only [lookupKey_pushNode]
      rcases eq_or_ne k (reqKey r) with heq | hne
      · rw [heq] at hk
        rw [hk] at hl
        exact absurd hl (by simp)
      · rw [if_neg hne]
        exact hk

theorem applySeq_lookup_mono (rs : List Request) (S : Store) (k : CacheKey) (h : Nat)
    (hk : lookupKey S k = some h) :
    lookupKey (applySeq S rs) k = some h := by
  induction rs generalizing S with
  | nil => exact hk
  | cons r rest ih =>
      exact ih _ (applyReq_lookup_mono S r k h hk)

theorem applyReq_size (S : Store) (r : Request) :
    (applyReq S r).1.size = S.size +
      (if (lookupKey S (reqKey r)).isSome then 0 else 1) := by
  rw [applyReq_eq]
  cases hl : lookupKey S (reqKey r) with
  | some h => simp [Store.size]
  | none => simp [Store.size, pushNode, insertCache]

/-- Two construction requests describing the same structural value, in the
sense of claim C1: same leaf kind, Product with identical child handles,
PowerSet with identical content handle, named set with the same name, Struct
with field lists that are permutations of each other. -/
def SameValue : Request → Request → Prop
  | .integer, .integer => True
  | .boolean, .boolean => True
  | .float, .float => True
  | .real, .real => True
  | .string, .string => True
  | .product lhs rhs, .product lhs2 rhs2 => lhs = lhs2 ∧ rhs = rhs2
  | .powerSet c, .powerSet c2 => c = c2
  | .abstractSet n, .abstractSet n2 => n = n2
  | .enumeratedSet n _, .enumeratedSet n2 _ => n = n2
  | .struct fields, .struct fields2 => fields.Perm fields2
  | _, _ => False

theorem structKey_eq_names (l : List (String × Nat)) (acc : String) :
    l.foldl (fun acc field => acc ++ field.1 ++ ";") acc
      = (l.map Prod.fst).foldl (fun acc n => acc ++ n ++ ";") acc := by
  induction l generalizing acc with
  | nil => rfl
  | cons p rest ih => simp only [List.foldl_cons, List.map_cons, ih]

theorem map_fst_sortFields {α : Type} (l : List (String × α)) :
    (sortFields l).map Prod.fst
      = List.insertionSort (fun a b : String => a ≤ b) (l.map Prod.fst) := by
  exact List.map_insertionSort (fun a b : String × α => a.1 ≤ b.1)
    (fun a b : String => a ≤ b) Prod.fst l (fun a _ b _ => Iff.rfl)

theorem structKey_sortFields_of_perm (f f2 : List (String × Nat)) (hp : f.Perm f2) :
    structKey (sortFields f) = structKey (sortFields f2) := by
  unfold structKey
  rw [structKey_eq_names, structKey_eq_names, map_fst_sortFields, map_fst_sortFields]
  have hperm : List.Perm (List.insertionSort (fun a b : String => a ≤ b) (f.map Prod.fst))
      (List.insertionSort (fun a b : String => a ≤ b) (f2.map Prod.fst)) :=
    (List.perm_insertionSort _ _).trans ((hp.map Prod.fst).trans
      (List.perm_insertionSort _ _).symm)
  rw [List.eq_of_perm_of_sorted hperm
    (List.sorted_insertionSort _ _) (List.sorted_insertionSort _ _)]

theorem reqKey_eq_of_sameValue {r r2 : Request} (h : SameValue r r2) :
    reqKey r = reqKey r2 := by
  cases r <;> cases r2 <;> simp only [SameValue] at h <;> try rfl
  all_goals first
    | exact h.elim
    | (obtain ⟨h1, h2⟩ := h; subst h1; subst h2; rfl)
    | (subst h; rfl)
    | (simp only [reqKey, CacheKey.structKey.injEq]
       exact structKey_sortFields_of_perm _ _ h)

/-- C1.  Interning: with an arbitrary store state, after a construction call
for `r` any later call describing the same structural value (possibly after
further unrelated calls `mid`) returns the identical handle and leaves the
store unchanged, and the call for `r` itself grows `size()` by one exactly
when its structural value was not yet interned. -/
theorem interning_canonical_identity (S : Store) (r : Request) (mid : List Request)
    (r2 : Request) (hsame : SameValue r r2) :
    (applyReq (applySeq (applyReq S r).1 mid) r2).2 = (applyReq S r).2
    ∧ (applyReq (applySeq (applyReq S r).1 mid) r2).1 = applySeq (applyReq S r).1 mid
    ∧ (applyReq S r).1.size
        = S.size + (if (lookupKey S (reqKey r)).isSome then 0 else 1) := by
  have hk : reqKey r2 = reqKey r := (reqKey_eq_of_sameValue hsame).symm
  have h1 : lookupKey (applyReq S r).1 (reqKey r) = some (applyReq S r).2 :=
    applyReq_lookup_self S r
  have h2 : lookupKey (applySeq (applyReq S r).1 mid) (reqKey r) = some (applyReq S r).2 :=
    applySeq_lookup_mono mid _ _ _ h1
  have h3 := applyReq_eq (applySeq (applyReq S r).1 mid) r2
  rw [hk, h2] at h3
  exact ⟨by rw [h3], by rw [h3], applyReq_size S r⟩

/-- Witness for C1 at a concrete input: a Struct interned under one field
order is returned, store untouched, when requested under the permuted
order after an intervening call. -/
theorem interning_canonical_identity_witness :
    SameValue (Request.struct [("b", 0), ("a", 1)]) (Request.struct [("a", 1), ("b", 0)])
    ∧ ((applyReq (applySeq (applyReq emptyStore (Request.struct [("b", 0), ("a", 1)])).1
          [Request.integer]) (Request.struct [("a", 1), ("b", 0)])).2
        = (applyReq emptyStore (Request.struct [("b", 0), ("a", 1)])).2
      ∧ (applyReq (applySeq (applyReq emptyStore (Request.struct [("b", 0), ("a", 1)])).1
          [Request.integer]) (Request.struct [("a", 1), ("b", 0)])).1
        = applySeq (applyReq emptyStore (Request.struct [("b", 0), ("a", 1)])).1
            [Request.integer]
      ∧ (applyReq emptyStore (Request.struct [("b", 0), ("a", 1)])).1.size
        = emptyStore.size +
            (if (lookupKey emptyStore (reqKey (Request.struct [("b", 0), ("a", 1)]))).isSome
              then 0 else 1)) := by
  have hs : SameValue (Request.struct [("b", 0), ("a", 1)])
      (Request.struct [("a", 1), ("b", 0)]) := by
    show List.Perm _ _
    decide
  exact ⟨hs, interning_canonical_identity emptyStore _ [Request.integer] _ hs⟩

/-! ## Store well-formedness: cache coherence of a reachable `BTypeCache` -/

/-- Check for a leaf singleton slot: if occupied, the handle points at the
expected node. -/
def slotOk (S : Store) (slot : Option Nat) (d : NodeData) : Bool :=
  match slot with
  | none => true
  | some h => S.m_index[h]? == some d

/-- Executable cache-coherence check for a store: every indexed node is
registered in its cache partition under its own key, every cache entry
points back at a node carrying the entry key, child handles precede their
parent in the index table, and stored struct fields are sorted.  These are
the invariants the check-then-create protocol of `src/btype_factory.cpp`
maintains. -/
def wf (S : Store) : Bool :=
  let n := S.m_index.length
  ((List.range n).all fun i =>
    lookupKey S (keyOfNode (S.m_index.getD i .INTEGER)) == some i)
  && slotOk S S.m_INTEGER .INTEGER
  && slotOk S S.m_BOOLEAN .BOOLEAN
  && slotOk S S.m_FLOAT .FLOAT
  && slotOk S S.m_REAL .REAL
  && slotOk S S.m_STRING .STRING
  && (S.m_productTypes.all fun e => S.m_index[e.2]? == some (.ProductType e.1.1 e.1.2))
  && (S.m_powerTypes.all fun e => S.m_index[e.2]? == some (.PowerType e.1))
  && (S.m_abstractSets.all fun e => S.m_index[e.2]? == some (.AbstractSet e.1))
  && (S.m_enumeratedSets.all fun e =>
      match S.m_index[e.2]? with
      | some (.EnumeratedSet name _) => name == e.1
      | _ => false)
  && (S.m_structTypes.all fun e =>
      match S.m_index[e.2]? with
      | some (.Struct fields) => structKey fields == e.1
      | _ => false)
  && ((List.range n).all fun i =>
      (nodeRefs (S.m_index.getD i .INTEGER)).all fun q => decide (q < i))
  && ((List.range n).all fun i =>
      match S.m_index.getD i .INTEGER with
      | .Struct fields => sortFields fields == fields
      | _ => true)

/-- The propositional reading of `wf` that the proofs use. -/
structure WFP (S : Store) : Prop where
  complete : ∀ i (hi : i < S.m_index.length), lookupKey S (keyOfNode S.m_index[i]) = some i
  sound : ∀ k h, lookupKey S k = some h →
    ∃ hh : h < S.m_index.length, keyOfNode S.m_index[h] = k
  refsBound : ∀ i (hi : i < S.m_index.length), ∀ q ∈ nodeRefs S.m_index[i], q < i
  structSorted : ∀ i (hi : i < S.m_index.length) fields,
    S.m_index[i] = NodeData.Struct fields → sortFields fields = fields

theorem findKey_mem {κ : Type} [DecidableEq κ] {l : List (κ × Nat)} {k : κ} {h : Nat}
    (hf : findKey l k = some h) : (k, h) ∈ l := by
  induction l with
  | nil => simp [findKey] at hf
  | cons e rest ih =>
      obtain ⟨k2, h2⟩ := e
      rw [findKey_cons] at hf
      by_cases hk : k = k2
      · rw [if_pos hk] at hf
        injection hf with hf
        subst hk
        subst hf
        exact List.mem_cons_self _ _
      · rw [if_neg hk] at hf
        exact List.mem_cons_of_mem _ (ih hf)

theorem entry_of_getElemQ {α : Type} {l : List α} {i : Nat} {d : α}
    (h : l[i]? = some d) : ∃ hh : i < l.length, l[i] = d := by
  have hlt : i < l.length := by
    by_contra hge
    rw [List.getElem?_eq_none (Nat.le_of_not_lt hge)] at h
    exact Option.noConfusion h
  refine ⟨hlt, ?_⟩
  rw [List.getElem?_eq_getElem hlt] at h
  injection h

theorem slot_entry {S : Store} {slot : Option Nat} {d : NodeData} {h : Nat}
    (hok : slotOk S slot d = true) (hs : slot = some h) :
    ∃ hh : h < S.m_index.length, S.m_index[h] = d := by
  subst hs
  simp only [slotOk, beq_iff_eq] at hok
  exact entry_of_getElemQ hok

/-- The executable check implies the propositional invariant. -/
theorem wf_to_WFP (S : Store) (hwf : wf S = true) : WFP S := by
  unfold wf at hwf
  simp only [Bool.and_eq_true, List.all_eq_true, List.mem_range, beq_iff_eq] at hwf
  obtain ⟨⟨⟨⟨⟨⟨⟨⟨⟨⟨⟨⟨hcomp, hInt⟩, hBool⟩, hFloat⟩, hReal⟩, hStr⟩, hProd⟩, hPow⟩,
    hAbs⟩, hEnum⟩, hStruct⟩, hRefs⟩, hSorted⟩ := hwf
  constructor
  · intro i hi
    have := hcomp i hi
    rwa [List.getD_eq_getElem S.m_index .INTEGER hi] at this
  · intro k h hk
    cases k with
    | integer =>
        obtain ⟨hlt, he⟩ := slot_entry hInt hk
        exact ⟨hlt, by rw [he]; rfl⟩
    | boolean =>
        obtain ⟨hlt, he⟩ := slot_entry hBool hk
        exact ⟨hlt, by rw [he]; rfl⟩
    | float =>
        obtain ⟨hlt, he⟩ := slot_entry hFloat hk
        exact ⟨hlt, by rw [he]; rfl⟩
    | real =>
        obtain ⟨hlt, he⟩ := slot_entry hReal hk
        exact ⟨hlt, by rw [he]; rfl⟩
    | string =>
        obtain ⟨hlt, he⟩ := slot_entry hStr hk
        exact ⟨hlt, by rw [he]; rfl⟩
    | product lhs rhs =>
        obtain ⟨hlt, he⟩ := entry_of_getElemQ (hProd _ (findKey_mem hk))
        exact ⟨hlt, by rw [he]; rfl⟩
    | power c =>
        obtain ⟨hlt, he⟩ := entry_of_getElemQ (hPow _ (findKey_mem hk))
        exact ⟨hlt, by rw [he]; rfl⟩
    | abstract n =>
        obtain ⟨hlt, he⟩ := entry_of_getElemQ (hAbs _ (findKey_mem hk))
        exact ⟨hlt, by rw [he]; rfl⟩
    | enum n =>
        have hm := hEnum _ (findKey_mem hk)
        rcases hg : S.m_index[h]? with _ | d
        · rw [hg] at hm
          exact absurd hm (by simp)
        · rw [hg] at hm
          obtain ⟨hlt, he⟩ := entry_of_getElemQ hg
          refine ⟨hlt, ?_⟩
          cases d <;> simp at hm
          rw [he]
          simp [keyOfNode, hm]
    | structKey k =>
        have hm := hStruct _ (findKey_mem hk)
        rcases hg : S.m_index[h]? with _ | d
        · rw [hg] at hm
          exact absurd hm (by simp)
        · rw [hg] at hm
          obtain ⟨hlt, he⟩ := entry_of_getElemQ hg
          refine ⟨hlt, ?_⟩
          cases d <;> simp at hm
          rw [he]
          simp [keyOfNode, hm]
  · intro i hi q hq
    have := hRefs i hi
    rw [List.getD_eq_getElem S.m_index .INTEGER hi] at this
    simp only [List.all_eq_true, decide_eq_true_eq] at this
    exact this q hq
  · intro i hi fields hf
    have := hSorted i hi
    rw [List.getD_eq_getElem S.m_index .INTEGER hi, hf] at this
    simpa using this

/-! ## Preservation of the invariant by every construction call -/

theorem keyOfNode_nodeOfReq (r : Request) : keyOfNode (nodeOfReq r) = reqKey r := by
  cases r <;> simp [keyOfNode, nodeOfReq, reqKey, sortFields_sortFields]

theorem mem_nodeRefs_nodeOfReq {r : Request} {q : Nat}
    (h : q ∈ nodeRefs (nodeOfReq r)) : q ∈ reqRefs r := by
  cases r with
  | struct f =>
      have hp : List.Perm (sortFields (sortFields f)) f :=
        (List.perm_insertionSort _ _).trans (List.perm_insertionSort _ _)
      simp only [nodeOfReq, nodeRefs] at h
      simp only [reqRefs]
      exact ((hp.map Prod.snd).mem_iff).mp h
  | product lhs rhs => exact h
  | powerSet c => exact h
  | integer => simp [nodeOfReq, nodeRefs] at h
  | boolean => simp [nodeOfReq, nodeRefs] at h
  | float => simp [nodeOfReq, nodeRefs] at h
  | real => simp [nodeOfReq, nodeRefs] at h
  | string => simp [nodeOfReq, nodeRefs] at h
  | abstractSet n => simp [nodeOfReq, nodeRefs] at h
  | enumeratedSet n vs => simp [nodeOfReq, nodeRefs] at h

theorem pushNode_m_index (S : Store) (r : Request) :
    (pushNode S r).m_index = S.m_index ++ [nodeOfReq r] := by
  cases r <;> rfl

theorem pushNode_length (S : Store) (r : Request) :
    (pushNode S r).m_index.length = S.m_index.length + 1 := by
  rw [pushNode_m_index]
  simp

theorem pushNode_getElem_low (S : Store) (r : Request) {i : Nat}
    (hi : i < S.m_index.length) (hi2 : i < (pushNode S r).m_index.length) :
    (pushNode S r).m_index[i] = S.m_index[i] := by
  simp only [pushNode_m_index]
  exact List.getElem_append_left hi

theorem pushNode_getElem_top (S : Store) (r : Request)
    (hi2 : S.m_index.length < (pushNode S r).m_index.length) :
    (pushNode S r).m_index[S.m_index.length] = nodeOfReq r := by
  simp only [pushNode_m_index]
  exact List.getElem_concat_length _ _ _ rfl _

/-- Every constructor call preserves the store invariant, provided the
request only mentions handles of existing nodes. -/
theorem WFP.preserve {S : Store} (hW : WFP S) (r : Request)
    (hv : ∀ q ∈ reqRefs r, q < S.m_index.length) : WFP (applyReq S r).1 := by
  rw [applyReq_eq]
  cases hl : lookupKey S (reqKey r) with
  | some h => exact hW
  | none =>
      simp only
      constructor
      · intro i hi
        rw [pushNode_length] at hi
        rcases Nat.lt_or_ge i S.m_index.length with hlt | hge
        · rw [pushNode_getElem_low S r hlt]
          have hc := hW.complete i hlt
          have hne : keyOfNode S.m_index[i] ≠ reqKey r := by
            intro heq
            rw [heq, hl] at hc
            exact Option.noConfusion hc
          rw [lookupKey_pushNode, if_neg hne]
          exact hc
        · have hieq : i = S.m_index.length := by omega
          subst hieq
          rw [pushNode_getElem_top S r (by rw [pushNode_length]; omega),
            keyOfNode_nodeOfReq, lookupKey_pushNode, if_pos rfl]
      · intro k h hk
        rw [lookupKey_pushNode] at hk
        by_cases hke : k = reqKey r
        · rw [if_pos hke] at hk
          injection hk with hk
          subst hk
          have hlt2 : S.m_index.length < (pushNode S r).m_index.length := by
            rw [pushNode_length]
            omega
          refine ⟨hlt2, ?_⟩
          rw [pushNode_getElem_top S r hlt2, keyOfNode_nodeOfReq, hke]
        · rw [if_neg hke] at hk
          obtain ⟨hh, hkey⟩ := hW.sound k h hk
          have hh2 : h < (pushNode S r).m_index.length := by
            rw [pushNode_length]
            omega
          refine ⟨hh2, ?_⟩
          rw [pushNode_getElem_low S r hh]
          exact hkey
      · intro i hi q hq
        rw [pushNode_length] at hi
        rcases Nat.lt_or_ge i S.m_index.length with hlt | hge
        · rw [pushNode_getElem_low S r hlt] at hq
          exact hW.refsBound i hlt q hq
        · have hieq : i = S.m_index.length := by omega
          subst hieq
          rw [pushNode_getElem_top S r (by rw [pushNode_length]; omega)] at hq
          exact hv q (mem_nodeRefs_nodeOfReq hq)
      · intro i hi fields hf
        rw [pushNode_length] at hi
        rcases Nat.lt_or_ge i S.m_index.length with hlt | hge
        · rw [pushNode_getElem_low S r hlt] at hf
          exact hW.structSorted i hlt fields hf
        · have hieq : i = S.m_index.length := by omega
          subst hieq
          rw [pushNode_getElem_top S r (by rw [pushNode_length]; omega)] at hf
          cases r <;> simp [nodeOfReq] at hf
          rw [← hf, sortFields_sortFields, sortFields_sortFields]

/-! ## Claims C5, C6, C10 -/

theorem structKey_eq_of_names {l1 l2 : List (String × Nat)}
    (h : l1.map Prod.fst = l2.map Prod.fst) : structKey l1 = structKey l2 := by
  unfold structKey
  rw [structKey_eq_names, structKey_eq_names, h]

/-- C5.  The Struct partition is keyed by field names only: a second Struct
request with the same sorted field-name sequence (here: arbitrary field
handles, in particular differing ones) returns the node interned by the
first request without touching the store, and in a coherent store at most
one Struct node exists per field-name sequence. -/
theorem struct_lookup_keyed_by_names_only (S : Store) (f f2 : List (String × Nat))
    (hnames : (sortFields f).map Prod.fst = (sortFields f2).map Prod.fst)
    (hne : f ≠ f2) :
    (applyReq (applyReq S (.struct f)).1 (.struct f2)).2 = (applyReq S (.struct f)).2
    ∧ (applyReq (applyReq S (.struct f)).1 (.struct f2)).1 = (applyReq S (.struct f)).1
    ∧ (wf S = true → ∀ i j fi fj (hi : i < S.m_index.length) (hj : j < S.m_index.length),
        S.m_index[i] = NodeData.Struct fi → S.m_index[j] = NodeData.Struct fj →
        fi.map Prod.fst = fj.map Prod.fst → i = j) := by
  have hkey : reqKey (.struct f2) = reqKey (.struct f) := by
    simp only [reqKey, CacheKey.structKey.injEq]
    exact structKey_eq_of_names hnames.symm
  have h1 : lookupKey (applyReq S (.struct f)).1 (reqKey (.struct f))
      = some (applyReq S (.struct f)).2 := applyReq_lookup_self S _
  have h3 := applyReq_eq (applyReq S (.struct f)).1 (.struct f2)
  rw [hkey, h1] at h3
  refine ⟨by rw [h3], by rw [h3], ?_⟩
  intro hwf i j fi fj hi hj hfi hfj hnm
  have W := wf_to_WFP S hwf
  have ci := W.complete i hi
  have cj := W.complete j hj
  rw [hfi] at ci
  rw [hfj] at cj
  simp only [keyOfNode] at ci cj
  rw [structKey_eq_of_names hnm] at ci
  rw [ci] at cj
  exact Option.some.inj cj

/-- Witness for C5: two one-field structs with the same field name but
different field types collide on one node. -/
theorem struct_lookup_keyed_by_names_only_witness :
    (sortFields [("a", 0)]).map Prod.fst = (sortFields [("a", 1)]).map Prod.fst
    ∧ [("a", (0 : Nat))] ≠ [("a", 1)]
    ∧ ((applyReq (applyReq emptyStore (.struct [("a", 0)])).1
          (.struct [("a", 1)])).2
        = (applyReq emptyStore (.struct [("a", 0)])).2
      ∧ (applyReq (applyReq emptyStore (.struct [("a", 0)])).1
          (.struct [("a", 1)])).1
        = (applyReq emptyStore (.struct [("a", 0)])).1
      ∧ (wf emptyStore = true →
          ∀ i j fi fj (hi : i < emptyStore.m_index.length)
            (hj : j < emptyStore.m_index.length),
            emptyStore.m_index[i] = NodeData.Struct fi →
            emptyStore.m_index[j] = NodeData.Struct fj →
            fi.map Prod.fst = fj.map Prod.fst → i = j)) := by
  have hnames : (sortFields [("a", (0 : Nat))]).map Prod.fst
      = (sortFields [("a", (1 : Nat))]).map Prod.fst := rfl
  have hne : [("a", (0 : Nat))] ≠ [("a", 1)] := by decide
  exact ⟨hnames, hne, struct_lookup_keyed_by_names_only emptyStore _ _ hnames hne⟩

/-- C6.  AbstractSet and EnumeratedSet are keyed solely by name: with a name
not interned yet, requesting `EnumeratedSet(n, vs1)` and then
`EnumeratedSet(n, vs2)` with different values returns the node interned by
the first call both times, the second call leaves the store unchanged, and
the stored value list is `vs1`. -/
theorem enumerated_set_name_sole_key (S : Store) (n : String) (vs1 vs2 : List String)
    (hfresh : findKey S.m_enumeratedSets n = none) (hvals : vs1 ≠ vs2) :
    (applyReq (applyReq S (.enumeratedSet n vs1)).1 (.enumeratedSet n vs2)).2
        = (applyReq S (.enumeratedSet n vs1)).2
    ∧ (applyReq (applyReq S (.enumeratedSet n vs1)).1 (.enumeratedSet n vs2)).1
        = (applyReq S (.enumeratedSet n vs1)).1
    ∧ (applyReq S (.enumeratedSet n vs1)).1.m_index[(applyReq S (.enumeratedSet n vs1)).2]?
        = some (NodeData.EnumeratedSet n vs1) := by
  have hl : lookupKey S (reqKey (.enumeratedSet n vs1)) = none := hfresh
  have he := applyReq_eq S (.enumeratedSet n vs1)
  rw [hl] at he
  have h1 : lookupKey (applyReq S (.enumeratedSet n vs1)).1 (reqKey (.enumeratedSet n vs1))
      = some (applyReq S (.enumeratedSet n vs1)).2 := applyReq_lookup_self S _
  have hk12 : reqKey (.enumeratedSet n vs2) = reqKey (.enumeratedSet n vs1) := rfl
  have h3 := applyReq_eq (applyReq S (.enumeratedSet n vs1)).1 (.enumeratedSet n vs2)
  rw [hk12, h1] at h3
  refine ⟨by rw [h3], by rw [h3], ?_⟩
  rw [he]
  simp only [pushNode_m_index]
  exact List.getElem?_concat_length _ _

/-- Witness for C6 on a fresh name with distinct value lists. -/
theorem enumerated_set_name_sole_key_witness :
    findKey emptyStore.m_enumeratedSets "E" = none
    ∧ ["x"] ≠ ([] : List String)
    ∧ ((applyReq (applyReq emptyStore (.enumeratedSet "E" ["x"])).1
          (.enumeratedSet "E" [])).2
        = (applyReq emptyStore (.enumeratedSet "E" ["x"])).2
      ∧ (applyReq (applyReq emptyStore (.enumeratedSet "E" ["x"])).1
          (.enumeratedSet "E" [])).1
        = (applyReq emptyStore (.enumeratedSet "E" ["x"])).1
      ∧ (applyReq emptyStore
            (.enumeratedSet "E" ["x"])).1.m_index[(applyReq emptyStore
              (.enumeratedSet "E" ["x"])).2]?
        = some (NodeData.EnumeratedSet "E" ["x"])) := by
  have hfresh : findKey emptyStore.m_enumeratedSets "E" = none := rfl
  have hvals : ["x"] ≠ ([] : List String) := by decide
  exact ⟨hfresh, hvals, enumerated_set_name_sole_key emptyStore "E" ["x"] [] hfresh hvals⟩

/-- C10.  Cross-kind name collision: `AbstractSet(n)` and
`EnumeratedSet(n, vs)` are interned as two distinct nodes of different
kinds, yet they compare as equal because both hash only the bare name. -/
theorem cross_kind_name_collision (strhash : String → Nat) (n : String)
    (vs : List String) (S : Store) (hwf : wf S = true) :
    BType.getKind (BType.AbstractSet n) ≠ BType.getKind (BType.EnumeratedSet n vs)
    ∧ (applyReq (applyReq S (.abstractSet n)).1 (.enumeratedSet n vs)).2
        ≠ (applyReq S (.abstractSet n)).2
    ∧ BType.compare strhash (BType.AbstractSet n) (BType.EnumeratedSet n vs) = 0
    ∧ BType.eqb strhash (BType.AbstractSet n) (BType.EnumeratedSet n vs) = true := by
  refine ⟨by simp [BType.getKind], ?_, by simp [BType.compare, BType.hash_combine],
    by simp [BType.eqb, BType.compare, BType.hash_combine]⟩
  have W := wf_to_WFP S hwf
  have W1 : WFP (applyReq S (.abstractSet n)).1 :=
    W.preserve (.abstractSet n) (by simp [reqRefs])
  have W2 : WFP (applyReq (applyReq S (.abstractSet n)).1 (.enumeratedSet n vs)).1 :=
    W1.preserve (.enumeratedSet n vs) (by simp [reqRefs])
  have h1 : lookupKey (applyReq S (.abstractSet n)).1 (CacheKey.abstract n)
      = some (applyReq S (.abstractSet n)).2 := applyReq_lookup_self S _
  have h1b : lookupKey (applyReq (applyReq S (.abstractSet n)).1 (.enumeratedSet n vs)).1
      (CacheKey.abstract n) = some (applyReq S (.abstractSet n)).2 :=
    applyReq_lookup_mono _ _ _ _ h1
  have h2 : lookupKey (applyReq (applyReq S (.abstractSet n)).1 (.enumeratedSet n vs)).1
      (CacheKey.enum n)
      = some (applyReq (applyReq S (.abstractSet n)).1 (.enumeratedSet n vs)).2 :=
    applyReq_lookup_self _ _
  intro heq
  rw [heq] at h2
  obtain ⟨hlt1, hk1⟩ := W2.sound _ _ h1b
  obtain ⟨hlt2, hk2⟩ := W2.sound _ _ h2
  exact absurd (hk1.symm.trans hk2) (by simp)

/-- Witness for C10 at a fresh store and a concrete name. -/
theorem cross_kind_name_collision_witness :
    wf emptyStore = true
    ∧ (BType.getKind (BType.AbstractSet "S") ≠ BType.getKind (BType.EnumeratedSet "S" ["a"])
      ∧ (applyReq (applyReq emptyStore (.abstractSet "S")).1 (.enumeratedSet "S" ["a"])).2
          ≠ (applyReq emptyStore (.abstractSet "S")).2
      ∧ BType.compare strhashModel (BType.AbstractSet "S") (BType.EnumeratedSet "S" ["a"]) = 0
      ∧ BType.eqb strhashModel (BType.AbstractSet "S") (BType.EnumeratedSet "S" ["a"]) = true) := by
  have hwf : wf emptyStore = true := rfl
  exact ⟨hwf, cross_kind_name_collision strhashModel "S" ["a"] emptyStore hwf⟩

/-! ## Exchange documents (`src/btype_xml_reader.cpp`, `src/btype_xml_writer.cpp`)

A document is the list of `RichType` elements; tinyxml2 attributes that may
be missing or unparsable are `Option`-valued, unknown child tags keep their
tag string. -/

/-- The single type-definition child of a `RichType` element. -/
inductive TypeDefElem where
  | BOOL
  | INTEGER
  | REAL
  | FLOAT
  | STRING
  | PowerSet (arg : Option Int)
  | CartesianProduct (arg1 arg2 : Option Int)
  | AbstractSet (name : Option String)
  | EnumeratedSet (name : Option String) (values : List (Option String))
  | StructType (fields : List (Option String × Option Int))
  | Unknown (tag : String)
deriving DecidableEq

/-- A `RichType` element: its `id` attribute and its first child (if any). -/
structure RichTypeElem where
  id : Option Int
  content : Option TypeDefElem
deriving DecidableEq

/-- First pass of `BTypeFactory::buildFromXML`: each element must carry a
parsable, non-negative id equal to its position. -/
def checkIds : List RichTypeElem → Nat → Except String Unit
  | [], _ => .ok ()
  | e :: rest, pos =>
      match e.id with
      | none => .error "Invalid or missing id attribute"
      | some id =>
          if id < 0 then .error "Invalid or missing id attribute"
          else if id.toNat ≠ pos then .error "RichType indexing is not contiguous"
          else checkIds rest (pos + 1)

/-- The `EnumeratedValue` loop of `typeOfXmlElement`: every value element
must carry a name. -/
def collectValues : List (Option String) → Except String (List String)
  | [] => .ok []
  | none :: _ => .error "Missing EnumeratedValue name attribute"
  | some v :: rest =>
      match collectValues rest with
      | .error e => .error e
      | .ok vs => .ok (v :: vs)

/-- The state threaded through resolution: the `types` placeholder vector
and the factory store (global in C++). -/
structure RState where
  types : List (Option Nat)
  store : Store
deriving DecidableEq

/-- The `Field` loop inside the `StructType` branch of `typeOfXmlElement`;
`resolve` is the enclosing recursive lambda. -/
def resolveFields (resolve : RState → Nat → Except String RState) :
    RState → List (Option String × Option Int) → List (String × Nat) →
    Except String (RState × List (String × Nat))
  | st, [], acc => .ok (st, acc)
  | st, (oname, otid) :: rest, acc =>
      match oname, otid with
      | some nm, some tid =>
          if tid < 0 ∨ (st.types.length : Int) ≤ tid then
            .error "Invalid Struct field definition"
          else
            match resolve st tid.toNat with
            | .error e => .error e
            | .ok st1 =>
                match st1.types[tid.toNat]? with
                | some (some hdl) => resolveFields resolve st1 rest (acc ++ [(nm, hdl)])
                | _ => .error "unresolved Struct field reference"
      | _, _ => .error "Invalid Struct field definition"

/-- The memoized recursive resolver `typeOfXmlElement` of
`src/btype_xml_reader.cpp`.  The C++ lambda recurses without any guard and
does not terminate on cyclic references; here every nesting level consumes
one unit of fuel, and fuel exhaustion models that divergence (on an acyclic
document the nesting depth never exceeds the record count, so the budget
`buildFromXML` passes cannot exhaust there).  The `unresolved` error arms
model the null-dereference a hypothetical unresolved child would cause in
C++; they are unreachable because a returning call always fills its slot. -/
def typeOfXmlElement : Nat → List RichTypeElem → RState → Nat → Except String RState
  | 0, _, _, _ => .error "resolution recursion does not terminate"
  | fuel + 1, recs, st, pos =>
      match st.types[pos]? with
      | none => .error "position out of range"
      | some (some _) => .ok st
      | some none =>
          match recs[pos]? with
          | none => .error "position out of range"
          | some elem =>
              match elem.content with
              | none => .error "Empty RichType element"
              | some d =>
                  match d with
                  | .BOOL =>
                      let p := getBoolean st.store
                      .ok ⟨st.types.set pos (some p.2), p.1⟩
                  | .INTEGER =>
                      let p := getInteger st.store
                      .ok ⟨st.types.set pos (some p.2), p.1⟩
                  | .REAL =>
                      let p := getReal st.store
                      .ok ⟨st.types.set pos (some p.2), p.1⟩
                  | .FLOAT =>
                      let p := getFloat st.store
                      .ok ⟨st.types.set pos (some p.2), p.1⟩
                  | .STRING =>
                      let p := getString st.store
                      .ok ⟨st.types.set pos (some p.2), p.1⟩
                  | .PowerSet arg =>
                      match arg with
                      | none => .error "Invalid PowerSet arg reference"
                      | some argId =>
                          if argId < 0 ∨ (st.types.length : Int) ≤ argId then
                            .error "Invalid PowerSet arg reference"
                          else
                            match typeOfXmlElement fuel recs st argId.toNat with
                            | .error e => .error e
                            | .ok st1 =>
                                match st1.types[argId.toNat]? with
                                | some (some hdl) =>
                                    let p := getOrCreatePowerType st1.store hdl
                                    .ok ⟨st1.types.set pos (some p.2), p.1⟩
                                | _ => .error "unresolved PowerSet reference"
                  | .CartesianProduct arg1 arg2 =>
                      match arg1, arg2 with
                      | some a1, some a2 =>
                          if a1 < 0 ∨ (st.types.length : Int) ≤ a1
                              ∨ a2 < 0 ∨ (st.types.length : Int) ≤ a2 then
                            .error "Invalid CartesianProduct arg references"
                          else
                            match typeOfXmlElement fuel recs st a1.toNat with
                            | .error e => .error e
                            | .ok st1 =>
                                match typeOfXmlElement fuel recs st1 a2.toNat with
                                | .error e => .error e
                                | .ok st2 =>
                                    match st2.types[a1.toNat]?, st2.types[a2.toNat]? with
                                    | some (some h1), some (some h2) =>
                                        let p := getOrCreateProductType st2.store h1 h2
                                        .ok ⟨st2.types.set pos (some p.2), p.1⟩
                                    | _, _ => .error "unresolved CartesianProduct reference"
                      | _, _ => .error "Invalid CartesianProduct arg references"
                  | .AbstractSet oname =>
                      match oname with
                      | none => .error "Missing AbstractSet name attribute"
                      | some nm =>
                          let p := getOrCreateAbstractSet st.store nm
                          .ok ⟨st.types.set pos (some p.2), p.1⟩
                  | .EnumeratedSet oname ovalues =>
                      match oname with
                      | none => .error "Missing EnumeratedSet name attribute"
                      | some nm =>
                          match collectValues ovalues with
                          | .error e => .error e
                          | .ok vs =>
                              let p := getOrCreateEnumeratedSet st.store nm vs
                              .ok ⟨st.types.set pos (some p.2), p.1⟩
                  | .StructType ofields =>
                      match resolveFields (typeOfXmlElement fuel recs) st ofields [] with
                      | .error e => .error e
                      | .ok (st1, fields) =>
                          let p := getOrCreateStruct st1.store fields
                          .ok ⟨st1.types.set pos (some p.2), p.1⟩
                  | .Unknown tag => .error ("Unknown type element: " ++ tag)
termination_by fuel _ _ _ => fuel

/-- The final defensive pass of `buildFromXML`: no position may remain
unresolved. -/
def checkResolved : List (Option Nat) → Nat → Except String (List Nat)
  | [], _ => .ok []
  | some h :: rest, i =>
      match checkResolved rest (i + 1) with
      | .error e => .error e
      | .ok hs => .ok (h :: hs)
  | none :: _, i => .error ("Missing type definition for id " ++ toString i)

/-- `BTypeFactory::buildFromXML` of `src/btype_xml_reader.cpp`: first pass
checks the ids, the driving pass resolves every position, the final pass
asserts no gaps; the resolved handle vector (local `types` in C++) and the
grown store are returned. -/
def buildFromXML (S : Store) (root : List RichTypeElem) :
    Except String (List Nat × Store) :=
  match checkIds root 0 with
  | .error e => .error e
  | .ok _ =>
      match (List.range root.length).foldlM
          (fun st i => typeOfXmlElement (root.length + 1) root st i)
          (⟨List.replicate root.length none, S⟩ : RState) with
      | .error e => .error e
      | .ok st =>
          match checkResolved st.types 0 with
          | .error e => .error e
          | .ok hs => .ok (hs, st.store)

/-- The record `BTypeFactory::writeXMLRichTypesInfo` emits for one node:
children are referenced by their store index. -/
def elemOfNode : NodeData → TypeDefElem
  | .BOOLEAN => .BOOL
  | .INTEGER => .INTEGER
  | .REAL => .REAL
  | .FLOAT => .FLOAT
  | .STRING => .STRING
  | .PowerType c => .PowerSet (some (c : Int))
  | .ProductType lhs rhs => .CartesianProduct (some (lhs : Int)) (some (rhs : Int))
  | .AbstractSet n => .AbstractSet (some n)
  | .EnumeratedSet n vs => .EnumeratedSet (some n) (vs.map some)
  | .Struct fields => .StructType (fields.map fun f => (some f.1, some (f.2 : Int)))

/-- `BTypeFactory::writeXMLRichTypesInfo`: one record per index `0..N-1`,
tagged with that index as id. -/
def writeRecords (S : Store) : List RichTypeElem :=
  (List.range S.m_index.length).map fun i =>
    ⟨some (((i : Nat) : Int)), (S.m_index[i]?).map elemOfNode⟩

/-! ## Reader: id validation (claim C8) and record well-formedness -/

/-- A record is individually well-formed for a document of `n` records: its
definition element is present and known, required attributes are present,
and every reference lies in `0..n-1`. -/
def elemWFb (oc : Option TypeDefElem) (n : Nat) : Bool :=
  match oc with
  | none => false
  | some d =>
      match d with
      | .BOOL => true
      | .INTEGER => true
      | .REAL => true
      | .FLOAT => true
      | .STRING => true
      | .PowerSet arg =>
          match arg with
          | some a => decide (0 ≤ a) && decide (a.toNat < n)
          | none => false
      | .CartesianProduct arg1 arg2 =>
          match arg1, arg2 with
          | some a, some b =>
              decide (0 ≤ a) && decide (a.toNat < n)
                && decide (0 ≤ b) && decide (b.toNat < n)
          | _, _ => false
      | .AbstractSet name => name.isSome
      | .EnumeratedSet name values => name.isSome && values.all Option.isSome
      | .StructType fields =>
          fields.all fun f =>
            f.1.isSome &&
              (match f.2 with
                | some t => decide (0 ≤ t) && decide (t.toNat < n)
                | none => false)
      | .Unknown _ => false

/-- The record positions a type-definition element references. -/
def elemRefs (oc : Option TypeDefElem) : List Nat :=
  match oc with
  | some (.PowerSet (some a)) => [a.toNat]
  | some (.CartesianProduct (some a) (some b)) => [a.toNat, b.toNat]
  | some (.StructType fields) => fields.filterMap fun f => f.2.map Int.toNat
  | _ => []

theorem checkIds_error (root : List RichTypeElem) :
    ∀ pos, (∃ p, ∃ hp : p < root.length, root[p].id ≠ some (((pos + p : Nat) : Int))) →
    ∃ msg, checkIds root pos = .error msg := by
  induction root with
  | nil =>
      intro pos h
      obtain ⟨p, hp, _⟩ := h
      exact absurd hp (by simp)
  | cons e rest ih =>
      intro pos h
      obtain ⟨p, hp, hne⟩ := h
      cases hid : e.id with
      | none => exact ⟨"Invalid or missing id attribute", by simp [checkIds, hid]⟩
      | some id =>
          by_cases hneg : id < 0
          · exact ⟨"Invalid or missing id attribute", by simp [checkIds, hid, hneg]⟩
          · by_cases hmatch : id.toNat = pos
            · have hidpos : id = ((pos : Nat) : Int) := by omega
              cases p with
              | zero =>
                  rw [List.getElem_cons_zero, hid, hidpos] at hne
                  simp at hne
              | succ p2 =>
                  obtain ⟨msg, hmsg⟩ := ih (pos + 1)
                    ⟨p2, by simpa using hp, by
                      rw [List.getElem_cons_succ] at hne
                      have : pos + 1 + p2 = pos + (p2 + 1) := by omega
                      rw [this]
                      exact hne⟩
                  exact ⟨msg, by simp [checkIds, hid, hneg, hmatch, hmsg]⟩
            · exact ⟨"RichType indexing is not contiguous",
                by simp [checkIds, hid, hneg, hmatch]⟩

theorem checkIds_ok (root : List RichTypeElem) :
    ∀ pos, (∀ p (hp : p < root.length), root[p].id = some (((pos + p : Nat) : Int))) →
    checkIds root pos = .ok () := by
  induction root with
  | nil => intro pos _; rfl
  | cons e rest ih =>
      intro pos hall
      have h0 := hall 0 (by simp)
      rw [List.getElem_cons_zero] at h0
      have hrec := ih (pos + 1) (fun p hp => by
        have := hall (p + 1) (by simpa using hp)
        rw [List.getElem_cons_succ] at this
        have harith : pos + (p + 1) = pos + 1 + p := by omega
        rwa [harith] at this)
      have hneg : ¬ (((pos + 0 : Nat) : Int) < 0) := by omega
      have hmatch : (((pos + 0 : Nat) : Int)).toNat = pos := by omega
      simp [checkIds, h0, hneg, hmatch, hrec]

/-- C8.  A document whose ids are missing, negative or out of place (in
particular a gap, as in ids `0, 2`) makes `buildFromXML` fail with the
malformed-input exception before any result table exists. -/
theorem load_aborts_on_malformed_ids (S : Store) (root : List RichTypeElem)
    (hbad : ∃ p, ∃ hp : p < root.length, root[p].id ≠ some (((p : Nat) : Int))) :
    ∃ msg, buildFromXML S root = .error msg := by
  obtain ⟨p, hp, hne⟩ := hbad
  obtain ⟨msg, hmsg⟩ := checkIds_error root 0 ⟨p, hp, by simpa using hne⟩
  exact ⟨msg, by simp [buildFromXML, hmsg]⟩

/-- Witness for C8: ids `0, 2` (gap at 1) abort the load. -/
theorem load_aborts_on_malformed_ids_witness :
    (∃ p, ∃ hp : p < ([⟨some 0, some TypeDefElem.INTEGER⟩,
        ⟨some 2, some TypeDefElem.INTEGER⟩] : List RichTypeElem).length,
      ([⟨some 0, some TypeDefElem.INTEGER⟩, ⟨some 2, some TypeDefElem.INTEGER⟩]
        : List RichTypeElem)[p].id ≠ some (((p : Nat) : Int)))
    ∧ ∃ msg, buildFromXML emptyStore [⟨some 0, some TypeDefElem.INTEGER⟩,
        ⟨some 2, some TypeDefElem.INTEGER⟩] = .error msg := by
  have hbad : ∃ p, ∃ hp : p < ([⟨some 0, some TypeDefElem.INTEGER⟩,
      ⟨some 2, some TypeDefElem.INTEGER⟩] : List RichTypeElem).length,
      ([⟨some 0, some TypeDefElem.INTEGER⟩, ⟨some 2, some TypeDefElem.INTEGER⟩]
        : List RichTypeElem)[p].id ≠ some (((p : Nat) : Int)) :=
    ⟨1, by decide, by decide⟩
  exact ⟨hbad, load_aborts_on_malformed_ids emptyStore _ hbad⟩

/-- Counterexample to C7 as stated: a two-record document in which every id
in `0..1` occurs exactly once and every record is individually well-formed
is nevertheless rejected when the records are not listed in id order,
because the first pass requires the id to equal the document position. -/
theorem reader_rejects_out_of_order_records :
    ([⟨some 1, some TypeDefElem.INTEGER⟩, ⟨some 0, some TypeDefElem.BOOL⟩]
        : List RichTypeElem).map RichTypeElem.id = [some 1, some 0]
    ∧ List.Perm [some (1 : Int), some 0] [some 0, some 1]
    ∧ (([⟨some 1, some TypeDefElem.INTEGER⟩, ⟨some 0, some TypeDefElem.BOOL⟩]
        : List RichTypeElem).all fun e => elemWFb e.content 2) = true
    ∧ buildFromXML emptyStore
        [⟨some 1, some TypeDefElem.INTEGER⟩, ⟨some 0, some TypeDefElem.BOOL⟩]
      = Except.error "RichType indexing is not contiguous" := by
  refine ⟨rfl, by decide, rfl, rfl⟩

/-! ## Reader success on well-formed documents (claim C7) -/

theorem types_set_resolved {ts : List (Option Nat)} {pos : Nat} (h : pos < ts.length)
    (v : Nat) : (ts.set pos (some v))[pos]? = some (some v) := by
  rw [List.getElem?_set_self]
  exact h

theorem types_set_keep {ts : List (Option Nat)} {pos j : Nat} (hne : j ≠ pos)
    (v : Option Nat) : (ts.set pos v)[j]? = ts[j]? :=
  List.getElem?_set_ne (Ne.symm hne)

theorem ne_of_resolved_unresolved {ts : List (Option Nat)} {pos j : Nat} {hj : Nat}
    (hpos : ts[pos]? = some none) (hJ : ts[j]? = some (some hj)) : j ≠ pos := by
  intro he
  rw [he, hpos] at hJ
  simp at hJ

theorem collectValues_ok (vs : List (Option String))
    (h : ∀ v ∈ vs, v.isSome = true) : ∃ out, collectValues vs = .ok out := by
  induction vs with
  | nil => exact ⟨[], rfl⟩
  | cons v rest ih =>
      cases v with
      | none => exact absurd (h none (by simp)) (by simp)
      | some s =>
          obtain ⟨out, hout⟩ := ih (fun v hv => h v (by simp [hv]))
          exact ⟨s :: out, by simp [collectValues, hout]⟩

/-- Success of the field-resolution loop, given success of the resolver on
every position a field may reference. -/
theorem resolveFields_ok (resolve : RState → Nat → Except String RState) (N : Nat)
    (P : Nat → Prop)
    (hres : ∀ q st, q < N → st.types.length = N → P q →
      ∃ st2, resolve st q = .ok st2 ∧ st2.types.length = N
        ∧ (∀ (j hj : Nat), st.types[j]? = some (some hj) → st2.types[j]? = some (some hj))
        ∧ ∃ h, st2.types[q]? = some (some h)) :
    ∀ fields st acc, st.types.length = N →
      (∀ f ∈ fields, (∃ nm, f.1 = some nm)
        ∧ ∃ t : Int, f.2 = some t ∧ 0 ≤ t ∧ t.toNat < N ∧ P t.toNat) →
      ∃ st2 out, resolveFields resolve st fields acc = .ok (st2, out)
        ∧ st2.types.length = N
        ∧ (∀ (j hj : Nat), st.types[j]? = some (some hj) → st2.types[j]? = some (some hj)) := by
  intro fields
  induction fields with
  | nil => exact fun st acc hlen _ => ⟨st, acc, rfl, hlen, fun j hj h => h⟩
  | cons f rest ih =>
      intro st acc hlen hflds
      obtain ⟨⟨nm, hnm⟩, t, ht, htnn, htlt, htP⟩ := hflds f (by simp)
      obtain ⟨fst, fsnd⟩ := f
      simp only at hnm ht
      subst hnm
      subst ht
      have hcond : ¬ (t < 0 ∨ (st.types.length : Int) ≤ t) := by
        rw [hlen]
        omega
      obtain ⟨st1, hst1, hlen1, hmono1, h1, hres1⟩ :=
        hres t.toNat st htlt hlen htP
      obtain ⟨st2, out, hst2, hlen2, hmono2⟩ :=
        ih st1 (acc ++ [(nm, h1)]) hlen1 (fun g hg => hflds g (by simp [hg]))
      refine ⟨st2, out, ?_, hlen2, fun j hj h => hmono2 j hj (hmono1 j hj h)⟩
      simp only [resolveFields, if_neg hcond, hst1, hres1]
      exact hst2

/-- Success and monotonicity of the memoized resolver on a well-formed
document whose reference graph admits a rank function (is acyclic). -/
theorem typeOfXmlElement_ok (root : List RichTypeElem) (rank : Nat → Nat)
    (hwf2 : ∀ p (hp : p < root.length), elemWFb root[p].content root.length = true)
    (hrank : ∀ p (hp : p < root.length), ∀ q ∈ elemRefs root[p].content, rank q < rank p) :
    ∀ fuel pos st, pos < root.length → st.types.length = root.length →
      rank pos < fuel →
      ∃ st2, typeOfXmlElement fuel root st pos = .ok st2
        ∧ st2.types.length = root.length
        ∧ (∀ (j hj : Nat), st.types[j]? = some (some hj) → st2.types[j]? = some (some hj))
        ∧ ∃ h, st2.types[pos]? = some (some h) := by
  intro fuel
  induction fuel with
  | zero => intro pos st _ _ hr; omega
  | succ fuel ih =>
      intro pos st hpos hlen hr
      have hplen : pos < st.types.length := by omega
      have hts : st.types[pos]? = some (st.types[pos]) :=
        List.getElem?_eq_getElem hplen
      cases hv : st.types[pos] with
      | some h0 =>
          rw [hv] at hts
          refine ⟨st, ?_, hlen, fun j hj h => h, ⟨h0, hts⟩⟩
          simp only [typeOfXmlElement, hts]
      | none =>
          rw [hv] at hts
          have hroot : root[pos]? = some (root[pos]) :=
            List.getElem?_eq_getElem hpos
          have hwfp := hwf2 pos hpos
          cases hc : root[pos].content with
          | none => rw [hc] at hwfp; simp [elemWFb] at hwfp
          | some d =>
              rw [hc] at hwfp
              cases d with
              | BOOL =>
                  refine ⟨⟨st.types.set pos (some (getBoolean st.store).2),
                    (getBoolean st.store).1⟩, ?_, by simp [hlen], ?_, ?_⟩
                  · simp only [typeOfXmlElement, hts, hroot, hc]
                  · intro j hj h
                    exact (types_set_keep (ne_of_resolved_unresolved hts h) _).trans h
                  · exact ⟨_, types_set_resolved (by omega) _⟩
              | INTEGER =>
                  refine ⟨⟨st.types.set pos (some (getInteger st.store).2),
                    (getInteger st.store).1⟩, ?_, by simp [hlen], ?_, ?_⟩
                  · simp only [typeOfXmlElement, hts, hroot, hc]
                  · intro j hj h
                    exact (types_set_keep (ne_of_resolved_unresolved hts h) _).trans h
                  · exact ⟨_, types_set_resolved (by omega) _⟩
              | REAL =>
                  refine ⟨⟨st.types.set pos (some (getReal st.store).2),
                    (getReal st.store).1⟩, ?_, by simp [hlen], ?_, ?_⟩
                  · simp only [typeOfXmlElement, hts, hroot, hc]
                  · intro j hj h
                    exact (types_set_keep (ne_of_resolved_unresolved hts h) _).trans h
                  · exact ⟨_, types_set_resolved (by omega) _⟩
              | FLOAT =>
                  refine ⟨⟨st.types.set pos (some (getFloat st.store).2),
                    (getFloat st.store).1⟩, ?_, by simp [hlen], ?_, ?_⟩
                  · simp only [typeOfXmlElement, hts, hroot, hc]
                  · intro j hj h
                    exact (types_set_keep (ne_of_resolved_unresolved hts h) _).trans h
                  · exact ⟨_, types_set_resolved (by omega) _⟩
              | STRING =>
                  refine ⟨⟨st.types.set pos (some (getString st.store).2),
                    (getString st.store).1⟩, ?_, by simp [hlen], ?_, ?_⟩
                  · simp only [typeOfXmlElement, hts, hroot, hc]
                  · intro j hj h
                    exact (types_set_keep (ne_of_resolved_unresolved hts h) _).trans h
                  · exact ⟨_, types_set_resolved (by omega) _⟩
              | AbstractSet oname =>
                  rcases oname with _ | nm
                  · simp [elemWFb] at hwfp
                  · refine ⟨⟨st.types.set pos (some (getOrCreateAbstractSet st.store nm).2),
                      (getOrCreateAbstractSet st.store nm).1⟩, ?_, by simp [hlen], ?_, ?_⟩
                    · simp only [typeOfXmlElement, hts, hroot, hc]
                    · intro j hj h
                      exact (types_set_keep (ne_of_resolved_unresolved hts h) _).trans h
                    · exact ⟨_, types_set_resolved (by omega) _⟩
              | EnumeratedSet oname ovalues =>
                  rcases oname with _ | nm
                  · simp [elemWFb] at hwfp
                  · simp only [elemWFb, Bool.and_eq_true, List.all_eq_true] at hwfp
                    obtain ⟨out, hout⟩ := collectValues_ok ovalues hwfp.2
                    refine ⟨⟨st.types.set pos
                        (some (getOrCreateEnumeratedSet st.store nm out).2),
                      (getOrCreateEnumeratedSet st.store nm out).1⟩, ?_,
                      by simp [hlen], ?_, ?_⟩
                    · simp only [typeOfXmlElement, hts, hroot, hc, hout]
                    · intro j hj h
                      exact (types_set_keep (ne_of_resolved_unresolved hts h) _).trans h
                    · exact ⟨_, types_set_resolved (by omega) _⟩
              | PowerSet arg =>
                  rcases arg with _ | a
                  · simp [elemWFb] at hwfp
                  · simp only [elemWFb, Bool.and_eq_true, decide_eq_true_eq] at hwfp
                    obtain ⟨hann, halt⟩ := hwfp
                    have hcond : ¬ (a < 0 ∨ (st.types.length : Int) ≤ a) := by
                      rw [hlen]
                      omega
                    have hrq : rank a.toNat < fuel := by
                      have := hrank pos hpos a.toNat (by simp [hc, elemRefs])
                      omega
                    obtain ⟨st1, hst1, hlen1, hmono1, h1, hres1⟩ :=
                      ih a.toNat st halt hlen hrq
                    refine ⟨⟨st1.types.set pos
                        (some (getOrCreatePowerType st1.store h1).2),
                      (getOrCreatePowerType st1.store h1).1⟩, ?_,
                      by simp [hlen1], ?_, ?_⟩
                    · simp only [typeOfXmlElement, hts, hroot, hc, if_neg hcond, hst1, hres1]
                    · intro j hj h
                      have h2 := hmono1 j hj h
                      exact (types_set_keep (ne_of_resolved_unresolved hts h) _).trans h2
                    · exact ⟨_, types_set_resolved (by omega) _⟩
              | CartesianProduct arg1 arg2 =>
                  rcases arg1 with _ | a1
                  · simp [elemWFb] at hwfp
                  · rcases arg2 with _ | a2
                    · simp [elemWFb] at hwfp
                    · simp only [elemWFb, Bool.and_eq_true, decide_eq_true_eq] at hwfp
                      obtain ⟨⟨⟨h1nn, h1lt⟩, h2nn⟩, h2lt⟩ := hwfp
                      have hcond : ¬ (a1 < 0 ∨ (st.types.length : Int) ≤ a1
                          ∨ a2 < 0 ∨ (st.types.length : Int) ≤ a2) := by
                        rw [hlen]
                        omega
                      have hrq1 : rank a1.toNat < fuel := by
                        have := hrank pos hpos a1.toNat (by simp [hc, elemRefs])
                        omega
                      have hrq2 : rank a2.toNat < fuel := by
                        have := hrank pos hpos a2.toNat (by simp [hc, elemRefs])
                        omega
                      obtain ⟨st1, hst1, hlen1, hmono1, hh1, hres1⟩ :=
                        ih a1.toNat st h1lt hlen hrq1
                      obtain ⟨st2, hst2, hlen2, hmono2, hh2, hres2⟩ :=
                        ih a2.toNat st1 h2lt hlen1 hrq2
                      have hres1b : st2.types[a1.toNat]? = some (some hh1) :=
                        hmono2 _ _ hres1
                      refine ⟨⟨st2.types.set pos
                          (some (getOrCreateProductType st2.store hh1 hh2).2),
                        (getOrCreateProductType st2.store hh1 hh2).1⟩, ?_,
                        by simp [hlen2], ?_, ?_⟩
                      · simp only [typeOfXmlElement, hts, hroot, hc, if_neg hcond,
                          hst1, hst2, hres1b, hres2]
                      · intro j hj h
                        have h2 := hmono2 j hj (hmono1 j hj h)
                        exact (types_set_keep (ne_of_resolved_unresolved hts h) _).trans h2
                      · exact ⟨_, types_set_resolved (by omega) _⟩
              | StructType ofields =>
                  simp only [elemWFb, List.all_eq_true, Bool.and_eq_true] at hwfp
                  obtain ⟨st1, out, hst1, hlen1, hmono1⟩ :=
                    resolveFields_ok (typeOfXmlElement fuel root)
                      root.length (fun q => rank q < fuel)
                      (fun q st2 hq hlen2 hP => ih q st2 hq hlen2 hP)
                      ofields st [] hlen
                      (fun f hf => by
                        have hwff := hwfp f hf
                        obtain ⟨hn, ht⟩ := hwff
                        refine ⟨Option.isSome_iff_exists.mp hn, ?_⟩
                        rcases hf2 : f.2 with _ | t
                        · rw [hf2] at ht
                          simp at ht
                        · rw [hf2] at ht
                          simp only [decide_eq_true_eq, Bool.and_eq_true] at ht
                          refine ⟨t, rfl, ht.1, ht.2, ?_⟩
                          have hmem : t.toNat ∈ elemRefs root[pos].content := by
                            rw [hc]
                            simp only [elemRefs, List.mem_filterMap]
                            exact ⟨f, hf, by rw [hf2]; rfl⟩
                          have := hrank pos hpos t.toNat hmem
                          omega)
                  refine ⟨⟨st1.types.set pos
                      (some (getOrCreateStruct st1.store out).2),
                    (getOrCreateStruct st1.store out).1⟩, ?_,
                    by simp [hlen1], ?_, ?_⟩
                  · simp only [typeOfXmlElement, hts, hroot, hc, hst1]
                  · intro j hj h
                    have h2 := hmono1 j hj h
                    exact (types_set_keep (ne_of_resolved_unresolved hts h) _).trans h2
                  · exact ⟨_, types_set_resolved (by omega) _⟩
              | Unknown tag => simp [elemWFb] at hwfp

/-- Success of the driving pass over any list of in-range positions. -/
theorem drivePass_ok (root : List RichTypeElem) (rank : Nat → Nat)
    (hwf2 : ∀ p (hp : p < root.length), elemWFb root[p].content root.length = true)
    (hrank : ∀ p (hp : p < root.length), ∀ q ∈ elemRefs root[p].content, rank q < rank p)
    (hbound : ∀ p (hp : p < root.length), rank p < root.length) :
    ∀ (ps : List Nat) (st : RState),
      st.types.length = root.length → (∀ p ∈ ps, p < root.length) →
      ∃ st2, ps.foldlM (fun st i => typeOfXmlElement (root.length + 1) root st i) st
          = .ok st2
        ∧ st2.types.length = root.length
        ∧ (∀ (j hj : Nat), st.types[j]? = some (some hj) → st2.types[j]? = some (some hj))
        ∧ (∀ p ∈ ps, ∃ h, st2.types[p]? = some (some h)) := by
  intro ps
  induction ps with
  | nil => exact fun st hlen _ => ⟨st, rfl, hlen, fun j hj h => h, by simp⟩
  | cons p rest ih =>
      intro st hlen hmem
      have hplt : p < root.length := hmem p (by simp)
      obtain ⟨st1, hst1, hlen1, hmono1, hh, hres⟩ :=
        typeOfXmlElement_ok root rank hwf2 hrank (root.length + 1) p st hplt hlen
          (by have := hbound p hplt; omega)
      obtain ⟨st2, hst2, hlen2, hmono2, hall⟩ :=
        ih st1 hlen1 (fun q hq => hmem q (by simp [hq]))
      refine ⟨st2, ?_, hlen2, fun j hj h => hmono2 j hj (hmono1 j hj h), ?_⟩
      · rw [List.foldlM_cons, hst1]
        exact hst2
      · intro q hq
        rcases List.mem_cons.mp hq with hqp | hqr
        · subst hqp
          exact ⟨hh, hmono2 _ _ hres⟩
        · exact hall q hqr

theorem checkResolved_ok : ∀ (ts : List (Option Nat)) (i : Nat),
    (∀ j (hj : j < ts.length), ∃ h, ts[j]? = some (some h)) →
    ∃ hs, checkResolved ts i = .ok hs ∧ hs.length = ts.length := by
  intro ts
  induction ts with
  | nil => exact fun i _ => ⟨[], rfl, rfl⟩
  | cons o rest ih =>
      intro i hall
      obtain ⟨h, hh⟩ := hall 0 (by simp)
      rw [List.getElem?_cons_zero] at hh
      injection hh with hh
      subst hh
      obtain ⟨hs, hhs, hlen⟩ := ih (i + 1) (fun j hj => by
        obtain ⟨h2, hh2⟩ := hall (j + 1) (by simpa using hj)
        rw [List.getElem?_cons_succ] at hh2
        exact ⟨h2, hh2⟩)
      exact ⟨h :: hs, by simp [checkResolved, hhs], by simp [hlen]⟩

/-- C7 (amended).  Provided the records appear in id order (record `p`
carries id `p` — the first pass of the reader requires this), every record
is individually well-formed, and the reference graph is acyclic (it admits
a rank function bounded by the record count), `buildFromXML` succeeds and
resolves every record into a node — regardless of whether references point
to ids earlier or later than the referencing record. -/
theorem reader_accepts_forward_references (S : Store) (root : List RichTypeElem)
    (rank : Nat → Nat)
    (hids : ∀ p (hp : p < root.length), root[p].id = some ((p : Nat) : Int))
    (hwf2 : ∀ p (hp : p < root.length), elemWFb root[p].content root.length = true)
    (hrank : ∀ p (hp : p < root.length), ∀ q ∈ elemRefs root[p].content, rank q < rank p)
    (hbound : ∀ p (hp : p < root.length), rank p < root.length) :
    ∃ hs S2, buildFromXML S root = .ok (hs, S2) ∧ hs.length = root.length := by
  have hchk : checkIds root 0 = .ok () :=
    checkIds_ok root 0 (fun p hp => by simpa using hids p hp)
  obtain ⟨st2, hdrive, hlen2, hmono, hall⟩ :=
    drivePass_ok root rank hwf2 hrank hbound (List.range root.length)
      ⟨List.replicate root.length none, S⟩ (by simp) (fun p hp => List.mem_range.mp hp)
  obtain ⟨hs, hchkres, hlenhs⟩ := checkResolved_ok st2.types 0
    (fun j hj => hall j (List.mem_range.mpr (by omega)))
  refine ⟨hs, st2.store, ?_, by omega⟩
  simp only [buildFromXML, hchk, hdrive, hchkres]

/-- Witness for C7 (amended): a document whose first record forward-references
its second resolves fully. -/
theorem reader_accepts_forward_references_witness :
    (∀ p (hp : p < ([⟨some 0, some (TypeDefElem.PowerSet (some 1))⟩,
          ⟨some 1, some TypeDefElem.INTEGER⟩] : List RichTypeElem).length),
        ([⟨some 0, some (TypeDefElem.PowerSet (some 1))⟩,
          ⟨some 1, some TypeDefElem.INTEGER⟩] : List RichTypeElem)[p].id
          = some ((p : Nat) : Int))
    ∧ (∀ p (hp : p < ([⟨some 0, some (TypeDefElem.PowerSet (some 1))⟩,
          ⟨some 1, some TypeDefElem.INTEGER⟩] : List RichTypeElem).length),
        elemWFb ([⟨some 0, some (TypeDefElem.PowerSet (some 1))⟩,
          ⟨some 1, some TypeDefElem.INTEGER⟩] : List RichTypeElem)[p].content 2 = true)
    ∧ ∃ hs S2, buildFromXML emptyStore
        [⟨some 0, some (TypeDefElem.PowerSet (some 1))⟩,
          ⟨some 1, some TypeDefElem.INTEGER⟩] = .ok (hs, S2) ∧ hs.length = 2 := by
  refine ⟨by decide, by decide, ?_⟩
  exact reader_accepts_forward_references emptyStore _
    (fun p => if p = 0 then 1 else 0)
    (by decide) (by decide) (by decide) (by decide)

/-! ## Round-trip: replaying the writer output (claim C2) -/

/-- The construction request the reader issues for a record written from a
node (children already resolved to their original handles). -/
def reqOfNode : NodeData → Request
  | .INTEGER => .integer
  | .BOOLEAN => .boolean
  | .FLOAT => .float
  | .REAL => .real
  | .STRING => .string
  | .ProductType lhs rhs => .product lhs rhs
  | .PowerType c => .powerSet c
  | .AbstractSet n => .abstractSet n
  | .EnumeratedSet n vs => .enumeratedSet n vs
  | .Struct fields => .struct fields

theorem reqKey_reqOfNode {d : NodeData}
    (hs : ∀ fields, d = NodeData.Struct fields → sortFields fields = fields) :
    reqKey (reqOfNode d) = keyOfNode d := by
  cases d with
  | Struct fields =>
      simp only [reqOfNode, reqKey, keyOfNode, CacheKey.structKey.injEq]
      rw [hs fields rfl]
  | _ => rfl

theorem nodeOfReq_reqOfNode {d : NodeData}
    (hs : ∀ fields, d = NodeData.Struct fields → sortFields fields = fields) :
    nodeOfReq (reqOfNode d) = d := by
  cases d with
  | Struct fields =>
      simp only [reqOfNode, nodeOfReq, NodeData.Struct.injEq]
      rw [sortFields_sortFields, hs fields rfl]
  | _ => rfl

theorem reqRefs_reqOfNode (d : NodeData) : reqRefs (reqOfNode d) = nodeRefs d := by
  cases d <;> rfl

/-- The placeholder vector after the first `i` driving steps: position `j`
holds handle `j` when `j < i` and is unresolved otherwise. -/
def typesUpTo (n i : Nat) : List (Option Nat) :=
  (List.range n).map fun j => if j < i then some j else none

theorem typesUpTo_length (n i : Nat) : (typesUpTo n i).length = n := by
  simp [typesUpTo]

theorem typesUpTo_getElem (n i j : Nat) (hj : j < n) :
    (typesUpTo n i)[j]? = some (if j < i then some j else none) := by
  simp [typesUpTo, List.getElem?_map, List.getElem?_range hj]

theorem typesUpTo_zero (n : Nat) : typesUpTo n 0 = List.replicate n none := by
  refine List.ext_getElem?_iff.mpr fun j => ?_
  rcases Nat.lt_or_ge j n with hj | hj
  · rw [typesUpTo_getElem n 0 j hj, List.getElem?_replicate]
    simp [hj]
  · rw [List.getElem?_eq_none, List.getElem?_eq_none]
    · simp [hj]
    · rw [typesUpTo_length]
      omega

theorem typesUpTo_set (n i : Nat) (hi : i < n) :
    (typesUpTo n i).set i (some i) = typesUpTo n (i + 1) := by
  refine List.ext_getElem?_iff.mpr fun j => ?_
  rcases Nat.lt_or_ge j n with hj | hj
  · by_cases hji : j = i
    · subst hji
      rw [types_set_resolved (by rw [typesUpTo_length]; omega) j,
        typesUpTo_getElem n (j + 1) j hj]
      simp
    · rw [types_set_keep hji, typesUpTo_getElem n i j hj,
        typesUpTo_getElem n (i + 1) j hj]
      by_cases h : j < i
      · rw [if_pos h, if_pos (by omega)]
      · rw [if_neg h, if_neg (by omega)]
  · rw [List.getElem?_eq_none, List.getElem?_eq_none]
    · rw [typesUpTo_length]
      omega
    · rw [List.length_set, typesUpTo_length]
      omega

theorem writeRecords_length (S : Store) : (writeRecords S).length = S.m_index.length := by
  simp [writeRecords]

theorem writeRecords_getElem (S : Store) (i : Nat) (hi : i < S.m_index.length) :
    (writeRecords S)[i]? =
      some ⟨some ((i : Nat) : Int), some (elemOfNode (S.m_index[i]))⟩ := by
  simp [writeRecords, List.getElem?_map, List.getElem?_range hi,
    List.getElem?_eq_getElem hi]

/-- A resolver call on an already-resolved position returns at once. -/
theorem typeOfXmlElement_resolved (g : Nat) (recs : List RichTypeElem)
    (st : RState) (q : Nat) {hq : Nat} (h : st.types[q]? = some (some hq)) :
    typeOfXmlElement (g + 1) recs st q = .ok st := by
  simp only [typeOfXmlElement, h]

/-- During an in-order replay of a coherent store, the key of the next
source node is never in the replay cache: the first `i` replayed nodes have
the keys of the first `i` source nodes, all distinct from the key of node
`i`. -/
theorem replay_key_fresh (S : Store) (W : WFP S) (i : Nat) (hi : i < S.m_index.length)
    (Sr : Store) (Wr : WFP Sr) (hidx : Sr.m_index = S.m_index.take i) :
    lookupKey Sr (keyOfNode S.m_index[i]) = none := by
  rcases hlk : lookupKey Sr (keyOfNode S.m_index[i]) with _ | h
  · rfl
  · exfalso
    obtain ⟨hh, hkey⟩ := Wr.sound _ _ hlk
    have hlen : Sr.m_index.length = i := by
      rw [hidx, List.length_take]
      omega
    have hh2 : h < i := by omega
    have hh3 : h < S.m_index.length := by omega
    have hSr : Sr.m_index[h] = S.m_index[h] := by
      simp only [hidx]
      exact List.getElem_take _
    rw [hSr] at hkey
    have c1 := W.complete h (by omega)
    have c2 := W.complete i hi
    rw [hkey] at c1
    rw [c1] at c2
    injection c2 with c2
    omega

/-- The struct-field loop of the resolver, replaying a record whose field
references are all already resolved to themselves. -/
theorem resolveFields_resolved (g : Nat) (recs : List RichTypeElem) (st : RState) :
    ∀ (fields : List (String × Nat)) (acc : List (String × Nat)),
      (∀ f ∈ fields, f.2 < st.types.length ∧ st.types[f.2]? = some (some f.2)) →
      resolveFields (typeOfXmlElement (g + 1) recs) st
        (fields.map fun f => (some f.1, some ((f.2 : Nat) : Int))) acc
        = .ok (st, acc ++ fields) := by
  intro fields
  induction fields with
  | nil => intro acc _; simp [resolveFields]
  | cons f rest ih =>
      intro acc hres
      obtain ⟨hflt, hfres⟩ := hres f (by simp)
      have hcond : ¬ (((f.2 : Nat) : Int) < 0 ∨ (st.types.length : Int) ≤ ((f.2 : Nat) : Int)) := by
        omega
      have htn : ((f.2 : Nat) : Int).toNat = f.2 := by omega
      simp only [List.map_cons, resolveFields, if_neg hcond, htn,
        typeOfXmlElement_resolved g recs st f.2 hfres, hfres]
      rw [ih (acc ++ [(f.1, f.2)]) (fun f2 hf2 => hres f2 (by simp [hf2]))]
      simp

theorem collectValues_map_some : ∀ vs : List String, collectValues (vs.map some) = .ok vs := by
  intro vs
  induction vs with
  | nil => rfl
  | cons v rest ih => simp [collectValues, ih]

theorem typesUpTo_self_unresolved (N i : Nat) (h : i < N) :
    (typesUpTo N i)[i]? = some none := by
  rw [typesUpTo_getElem N i i h]
  simp

theorem typesUpTo_resolved_lt (N i q : Nat) (hq : q < i) (hN : q < N) :
    (typesUpTo N i)[q]? = some (some q) := by
  rw [typesUpTo_getElem N i q hN]
  simp [hq]

/-- One replay step: on a record written from node data `d` whose children
are already resolved to their own indices, the resolver issues exactly the
matching factory request and marks the position with the returned handle. -/
theorem replay_eval (recs : List RichTypeElem) (N i : Nat) (hiN : i < N)
    (Sr : Store) (d : NodeData)
    (hrec : recs[i]? = some ⟨some ((i : Nat) : Int), some (elemOfNode d)⟩)
    (hrefs : ∀ q ∈ nodeRefs d, q < i) (g : Nat) :
    typeOfXmlElement (g + 2) recs ⟨typesUpTo N i, Sr⟩ i
      = .ok ⟨(typesUpTo N i).set i (some (applyReq Sr (reqOfNode d)).2),
          (applyReq Sr (reqOfNode d)).1⟩ := by
  cases d with
  | INTEGER =>
      simp only [typeOfXmlElement, typesUpTo_self_unresolved N i hiN, hrec, elemOfNode]
      rfl
  | BOOLEAN =>
      simp only [typeOfXmlElement, typesUpTo_self_unresolved N i hiN, hrec, elemOfNode]
      rfl
  | FLOAT =>
      simp only [typeOfXmlElement, typesUpTo_self_unresolved N i hiN, hrec, elemOfNode]
      rfl
  | REAL =>
      simp only [typeOfXmlElement, typesUpTo_self_unresolved N i hiN, hrec, elemOfNode]
      rfl
  | STRING =>
      simp only [typeOfXmlElement, typesUpTo_self_unresolved N i hiN, hrec, elemOfNode]
      rfl
  | AbstractSet n =>
      simp only [typeOfXmlElement, typesUpTo_self_unresolved N i hiN, hrec, elemOfNode]
      rfl
  | EnumeratedSet n vs =>
      simp only [typeOfXmlElement, typesUpTo_self_unresolved N i hiN, hrec, elemOfNode,
        collectValues_map_some]
      rfl
  | PowerType c =>
      have hcN : c < i := hrefs c (by simp [nodeRefs])
      have hcond : ¬ ((c : Int) < 0 ∨ ((typesUpTo N i).length : Int) ≤ (c : Int)) := by
        rw [typesUpTo_length]
        omega
      have htn : ((c : Nat) : Int).toNat = c := by omega
      have hres : (typesUpTo N i)[c]? = some (some c) :=
        typesUpTo_resolved_lt N i c hcN (by omega)
      simp only [typeOfXmlElement, typesUpTo_self_unresolved N i hiN, hrec, elemOfNode,
        if_neg hcond, htn, hres]
      rfl
  | ProductType lhs rhs =>
      have hlN : lhs < i := hrefs lhs (by simp [nodeRefs])
      have hrN : rhs < i := hrefs rhs (by simp [nodeRefs])
      have hcond : ¬ ((lhs : Int) < 0 ∨ ((typesUpTo N i).length : Int) ≤ (lhs : Int)
          ∨ (rhs : Int) < 0 ∨ ((typesUpTo N i).length : Int) ≤ (rhs : Int)) := by
        rw [typesUpTo_length]
        omega
      have htn1 : ((lhs : Nat) : Int).toNat = lhs := by omega
      have htn2 : ((rhs : Nat) : Int).toNat = rhs := by omega
      have hres1 : (typesUpTo N i)[lhs]? = some (some lhs) :=
        typesUpTo_resolved_lt N i lhs hlN (by omega)
      have hres2 : (typesUpTo N i)[rhs]? = some (some rhs) :=
        typesUpTo_resolved_lt N i rhs hrN (by omega)
      simp only [typeOfXmlElement, typesUpTo_self_unresolved N i hiN, hrec, elemOfNode,
        if_neg hcond, htn1, htn2, hres1, hres2]
      rfl
  | Struct fields =>
      have hflds : ∀ f ∈ fields,
          f.2 < (⟨typesUpTo N i, Sr⟩ : RState).types.length
          ∧ (⟨typesUpTo N i, Sr⟩ : RState).types[f.2]? = some (some f.2) := by
        intro f hf
        have hfi : f.2 < i := hrefs f.2 (by
          simp only [nodeRefs, List.mem_map]
          exact ⟨f, hf, rfl⟩)
        constructor
        · simp only [typesUpTo_length]
          omega
        · exact typesUpTo_resolved_lt N i f.2 hfi (by omega)
      have hloop := resolveFields_resolved g recs ⟨typesUpTo N i, Sr⟩ fields [] hflds
      simp only [typeOfXmlElement, typesUpTo_self_unresolved N i hiN, hrec, elemOfNode,
        hloop, List.nil_append]
      rfl

/-- One full driving step of the replay: record `i` misses the cache (keys
of a coherent store are pairwise distinct), so the factory appends exactly
the source node at index `i`. -/
theorem replay_step (S : Store) (W : WFP S) (i : Nat) (hi : i < S.m_index.length)
    (Sr : Store) (Wr : WFP Sr) (hidx : Sr.m_index = S.m_index.take i)
    (f : Nat) (hf : 2 ≤ f) :
    typeOfXmlElement f (writeRecords S) ⟨typesUpTo S.m_index.length i, Sr⟩ i
      = .ok ⟨typesUpTo S.m_index.length (i + 1),
          (applyReq Sr (reqOfNode (S.m_index[i]))).1⟩
    ∧ (applyReq Sr (reqOfNode (S.m_index[i]))).1.m_index = S.m_index.take (i + 1)
    ∧ WFP (applyReq Sr (reqOfNode (S.m_index[i]))).1 := by
  obtain ⟨g, rfl⟩ : ∃ g, f = g + 2 := ⟨f - 2, by omega⟩
  have hsorted : ∀ fields, S.m_index[i] = NodeData.Struct fields →
      sortFields fields = fields := fun flds hf2 => W.structSorted i hi flds hf2
  have hlenSr : Sr.m_index.length = i := by
    rw [hidx, List.length_take]
    omega
  have hfresh : lookupKey Sr (reqKey (reqOfNode (S.m_index[i]))) = none := by
    rw [reqKey_reqOfNode hsorted]
    exact replay_key_fresh S W i hi Sr Wr hidx
  have happ : applyReq Sr (reqOfNode (S.m_index[i]))
      = (pushNode Sr (reqOfNode (S.m_index[i])), Sr.m_index.length) := by
    rw [applyReq_eq, hfresh]
  have hrefs : ∀ q ∈ reqRefs (reqOfNode (S.m_index[i])), q < Sr.m_index.length := by
    rw [reqRefs_reqOfNode, hlenSr]
    exact W.refsBound i hi
  have heval := replay_eval (writeRecords S) S.m_index.length i hi Sr (S.m_index[i])
    (writeRecords_getElem S i hi) (W.refsBound i hi) g
  have h2 : (applyReq Sr (reqOfNode (S.m_index[i]))).2 = i := by
    rw [happ]
    exact hlenSr
  refine ⟨?_, ?_, WFP.preserve Wr _ hrefs⟩
  · rw [heval, h2, typesUpTo_set S.m_index.length i hi]
  · rw [happ, pushNode_m_index, nodeOfReq_reqOfNode hsorted, hidx]
    exact List.take_concat_get' S.m_index i hi

/-- The driving pass of an in-order replay reconstructs the index table of
the source store node for node. -/
theorem replay_drive (S : Store) (W : WFP S) :
    ∀ (k i : Nat), i + k = S.m_index.length →
    ∀ (Sr : Store), WFP Sr → Sr.m_index = S.m_index.take i →
    ∃ S2 : Store,
      (List.range' i k).foldlM
          (fun st p => typeOfXmlElement (S.m_index.length + 1) (writeRecords S) st p)
          ⟨typesUpTo S.m_index.length i, Sr⟩
        = .ok ⟨typesUpTo S.m_index.length (i + k), S2⟩
      ∧ S2.m_index = S.m_index ∧ WFP S2 := by
  intro k
  induction k with
  | zero =>
      intro i hik Sr Wr hidx
      refine ⟨Sr, by simp only [List.range', List.foldlM_nil, Nat.add_zero]; rfl, ?_, Wr⟩
      rw [hidx]
      have hieq : i = S.m_index.length := by omega
      rw [hieq]
      exact List.take_length _
  | succ k ih =>
      intro i hik Sr Wr hidx
      have hi : i < S.m_index.length := by omega
      obtain ⟨hstep, hidx2, W2⟩ := replay_step S W i hi Sr Wr hidx
        (S.m_index.length + 1) (by omega)
      obtain ⟨S2, hfold, hS2, WS2⟩ := ih (i + 1) (by omega)
        (applyReq Sr (reqOfNode (S.m_index[i]))).1 W2 hidx2
      refine ⟨S2, ?_, hS2, WS2⟩
      rw [List.range'_succ, List.foldlM_cons, hstep]
      have harith : i + (k + 1) = (i + 1) + k := by omega
      rw [harith]
      exact hfold

/-- C2.  Round-trip: writing a coherent store and replaying the records in
order through `buildFromXML` on an empty store succeeds and reconstructs a
store of the same size whose node at every index has the same kind and
attributes (name, value list, sorted fields, child references) as the
source node at that index. -/
theorem write_read_roundtrip (S : Store) (hwf : wf S = true) :
    ∃ hs S2, buildFromXML emptyStore (writeRecords S) = .ok (hs, S2)
      ∧ S2.size = S.size
      ∧ S2.m_index = S.m_index
      ∧ ∀ i : Nat, S2.m_index[i]? = S.m_index[i]? := by
  have W := wf_to_WFP S hwf
  have hchk : checkIds (writeRecords S) 0 = .ok () := by
    apply checkIds_ok
    intro p hp
    have hp2 : p < S.m_index.length := by
      rw [writeRecords_length] at hp
      exact hp
    have hg := writeRecords_getElem S p hp2
    rw [List.getElem?_eq_getElem hp] at hg
    injection hg with hg
    rw [hg]
    simp
  obtain ⟨S2, hfold, hS2, WS2⟩ := replay_drive S W S.m_index.length 0 (by omega)
    emptyStore (wf_to_WFP emptyStore rfl) rfl
  have hfold2 : (List.range (writeRecords S).length).foldlM
      (fun st i => typeOfXmlElement ((writeRecords S).length + 1) (writeRecords S) st i)
      ⟨List.replicate (writeRecords S).length none, emptyStore⟩
      = .ok ⟨typesUpTo S.m_index.length S.m_index.length, S2⟩ := by
    rw [writeRecords_length, List.range_eq_range', ← typesUpTo_zero]
    rw [show (0 : Nat) + S.m_index.length = S.m_index.length from by omega] at hfold
    exact hfold
  obtain ⟨hs, hcr, hlenhs⟩ := checkResolved_ok
    (typesUpTo S.m_index.length S.m_index.length) 0
    (fun j hj => by
      rw [typesUpTo_length] at hj
      exact ⟨j, typesUpTo_resolved_lt _ _ j hj hj⟩)
  refine ⟨hs, S2, ?_, ?_, hS2, fun i => by rw [hS2]⟩
  · simp only [buildFromXML, hchk, hfold2, hcr]
  · show S2.m_index.length = S.m_index.length
    rw [hS2]

/-- Witness for C2 on a concrete two-node store (an integer and its power
set). -/
theorem write_read_roundtrip_witness :
    wf (applySeq emptyStore [Request.integer, Request.powerSet 0]) = true
    ∧ ∃ hs S2, buildFromXML emptyStore
        (writeRecords (applySeq emptyStore [Request.integer, Request.powerSet 0]))
        = .ok (hs, S2)
      ∧ S2.size = (applySeq emptyStore [Request.integer, Request.powerSet 0]).size
      ∧ S2.m_index = (applySeq emptyStore [Request.integer, Request.powerSet 0]).m_index
      ∧ ∀ i : Nat, S2.m_index[i]?
          = (applySeq emptyStore [Request.integer, Request.powerSet 0]).m_index[i]? := by
  have hwf : wf (applySeq emptyStore [Request.integer, Request.powerSet 0]) = true := rfl
  exact ⟨hwf, write_read_roundtrip _ hwf⟩
